import Mathlib

/-!
Verification of the onion-core component runtime against its specification.

The Python sources are shallowly embedded below, section by section:

* `Onion.Events` / `Onion.Props` — the reactive substrate
  (`src/onion/components/component.py`, `PropertyImpl`).
* `Onion.Container` — `ComponentContainer` (`src/onion/components/container.py`).
* `Onion.SchemaCheck` — `ComponentSchema.validate_schema`
  (`src/onion/declarations/schema.py`).
* `Onion.Factory` — `ComponentFactory` dependency resolution and the
  `initialize` ordering (`src/onion/components/factory.py`).
* `Onion.Decl` — the `DeclarationProcessor` flattening, registration,
  reference validation and `create_with` (`src/onion/declarations/processor.py`).

Stateful Python methods are modelled by explicit state passing; methods that
raise are modelled with `Except`.
-/

namespace Onion

/-! ## Reactive substrate: `PropertyImpl` (component.py)

`PropertyImpl._set_value` reads the previous value, stores the new one,
builds a `ValueChangedEvent(self, value, prev_value)` and hands it to the
dispatcher exactly once.  The dispatcher is modelled as the ordered log of
events that were dispatched through this property's event source. -/

structure ValueChangedEvent (α : Type) where
  /-- the sender of the change event: the property object itself -/
  sender : Nat
  value : α
  prev_value : α
deriving DecidableEq, Repr

/-- State of a `PropertyImpl`: its identity (standing for the Python object
`self`), its current `_value`, and the log of events it has dispatched. -/
structure PropertyImpl (α : Type) where
  selfId : Nat
  value : α
  dispatched : List (ValueChangedEvent α)
deriving DecidableEq, Repr

/-- Model of `PropertyImpl._set_value`: store the new value and dispatch a single
`ValueChangedEvent(self, value, prev_value)`. -/
def PropertyImpl.set_value (p : PropertyImpl α) (v : α) : PropertyImpl α :=
  let prev_value := p.value
  let ev : ValueChangedEvent α := ⟨p.selfId, v, prev_value⟩
  { p with value := v, dispatched := p.dispatched ++ [ev] }

/-! ## `ComponentContainer` (container.py)

`add` raises when a component of the same name is already present, before
touching the map; otherwise it inserts.  The map is modelled as an
association list.  Components are modelled by their name plus an object
identity, so that preservation of contents is meaningful. -/

structure Comp where
  name : String
  oid : Nat
deriving DecidableEq, Repr

/-- Errors of the component container. `duplicateComponentName` stands for
the `KeyError` raised by `ComponentContainer.add` on a name collision. -/
inductive ContainerErr where
  | duplicateComponentName : String → ContainerErr
deriving DecidableEq, Repr

abbrev ComponentContainer := List (String × Comp)

def ComponentContainer.names (c : ComponentContainer) : List String :=
  c.map Prod.fst

/-- Model of `ComponentContainer.add`: raise if the name is taken, else insert.  The
returned container is the state of `_components` after the call (unchanged
when the call raises, since the raise happens before the insertion). -/
def ComponentContainer.add (c : ComponentContainer) (comp : Comp) :
    Except ContainerErr Unit × ComponentContainer :=
  if comp.name ∈ c.names then
    (.error (.duplicateComponentName comp.name), c)
  else
    (.ok (), c ++ [(comp.name, comp)])

/-! ## `ComponentSchema.validate_schema` (schema.py)

Reflection data for a field is its name, its class-level default
(`getattr(cls, name, ...)`: absent, an `Input` marker, or a plain value) and
whether its declared element type is nullable (`Optional`).  Note that
`validate_schema` itself never consults nullability; the flag is carried so
that the specification's predicate can be stated alongside. -/

inductive FieldDefault where
  /-- case `field.default is ...`: no class-level default -/
  | missing : FieldDefault
  /-- the class-level default is an `Input` marker -/
  | input : FieldDefault
  /-- any other class-level default value -/
  | value : Nat → FieldDefault
deriving DecidableEq, Repr

structure FieldReflection where
  name : String
  default : FieldDefault
  /-- whether the declared element type is `Optional[...]` (nullable) -/
  nullable : Bool
deriving DecidableEq, Repr

inductive SchemaErr where
  | missingDefaultPropertyValue : String → SchemaErr
  | missingInput : String → SchemaErr
  | missingInputEvent : String → SchemaErr
deriving DecidableEq, Repr

/-- First error produced by the property loop of `validate_schema`. -/
def validateProps (propsKeys : List String) :
    List FieldReflection → Except SchemaErr Unit
  | [] => .ok ()
  | f :: rest =>
    if f.name ∈ propsKeys then validateProps propsKeys rest
    else match f.default with
      | .missing => .error (.missingDefaultPropertyValue f.name)
      | .input => .error (.missingInput f.name)
      | .value _ => validateProps propsKeys rest

/-- First error produced by the event loop of `validate_schema`. -/
def validateEvents (propsKeys : List String) :
    List FieldReflection → Except SchemaErr Unit
  | [] => .ok ()
  | f :: rest =>
    if f.name ∉ propsKeys ∧ f.default = .input then
      .error (.missingInputEvent f.name)
    else validateEvents propsKeys rest

/-- Model of `ComponentSchema.validate_schema`: walk the reflected properties, then
the reflected events, raising at the first offending field. -/
def validate_schema (properties events : List FieldReflection)
    (propsKeys : List String) : Except SchemaErr Unit := do
  validateProps propsKeys properties
  validateEvents propsKeys events

/-- The acceptance predicate claimed by the specification: construction
fails exactly when some reflected property has no `props` entry, no
class-level default, and a non-nullable declared type (plus the input-event
clause).  Stated from the claim's words, for comparison with
`validate_schema`. -/
def claimedAccepts (properties events : List FieldReflection)
    (propsKeys : List String) : Bool :=
  properties.all (fun f =>
    f.name ∈ propsKeys ∨ f.default ≠ .missing ∨ f.nullable) &&
  events.all (fun f => f.name ∈ propsKeys ∨ f.default ≠ .input)

/-! ## `ComponentFactory` dependency resolution (factory.py)

Python classes are identified by name; an instance records the `name`
attribute set by `ComponentFactory.add` (`none` for static objects that
have no such attribute) and an object identity.  `_component_of_types`
is an association list from type name to the list of instances indexed
under it; `_save_component_type` walks the instance's mro. -/

structure Inst where
  name : Option String
  oid : Nat
deriving DecidableEq, Repr

abbrev TypeRegistry := List (String × List Inst)

def lookupTy (reg : TypeRegistry) (t : String) : Option (List Inst) :=
  match reg with
  | [] => none
  | (n, l) :: rest => if n = t then some l else lookupTy rest t

/-- One step of `_save_component_type`: index `inst` under type `t`. -/
def saveTy (reg : TypeRegistry) (t : String) (inst : Inst) : TypeRegistry :=
  match reg with
  | [] => [(t, [inst])]
  | (n, l) :: rest =>
    if n = t then (n, l ++ [inst]) :: rest else (n, l) :: saveTy rest t inst

/-- Model of `ComponentFactory._save_component_type`: index the instance under every
type of its mro. -/
def save_component_type (reg : TypeRegistry) (mro : List String)
    (inst : Inst) : TypeRegistry :=
  mro.foldl (fun r t => saveTy r t inst) reg

/-- Constructor-parameter annotations, following `typing.get_origin` /
`get_args` as used by `_get_dependency`.  A `Union` annotation is the
`union` constructor applied to a chain built from `unionNil`,
`unionNoneCons` (a literal `None` member, tested by `arg is None`) and
`unionTyCons`.  `otherOrigin` stands for any other generic origin that is
neither `Union` nor a collection. -/
inductive DType where
  | plain : String → DType
  | coll : DType → DType
  | otherOrigin : DType
  | union : DType → DType
  | unionNil : DType
  | unionNoneCons : DType → DType
  | unionTyCons : DType → DType → DType
deriving DecidableEq, Repr

/-- Values produced by `_get` / `_get_dependency`: a single instance, a
Python list, or `None`. -/
inductive Resolved where
  | inst : Inst → Resolved
  | rlist : List Resolved → Resolved
  | noneV : Resolved
deriving Repr

/-- Python truthiness of a resolved dependency (`if depend_on:`). -/
def Resolved.truthy : Resolved → Bool
  | .inst _ => true
  | .rlist l => !l.isEmpty
  | .noneV => false

/-- Exceptions escaping `_get` / `_get_dependency`: `KeyError(type)`,
`ValueError(candidates)`, and the `IndexError` that `components[0]` would
raise on an empty bucket (never present in a registry built by `add`). -/
inductive GetErr where
  | keyError : DType → GetErr
  | valueError : List Inst → GetErr
  | indexError : GetErr
deriving DecidableEq, Repr

/-- Model of `ComponentFactory._get`. -/
def factory_get (reg : TypeRegistry) (t : String) (singular : Bool) :
    Except GetErr Resolved :=
  match lookupTy reg t with
  | none => .error (.keyError (.plain t))
  | some components =>
    if singular then
      if components.length > 1 then .error (.valueError components)
      else
        match components with
        | [] => .error .indexError
        | x :: _ => .ok (.inst x)
    else .ok (.rlist (components.map .inst))

/-- whether a `Union` member chain contains a literal `None` member
(`optional` flag in `_get_dependency`). -/
def unionOptional : DType → Bool
  | .unionNoneCons _ => true
  | .unionTyCons _ rest => unionOptional rest
  | _ => false

/-- Modes of the recursion in `_get_dependency`: `root` is the function
itself, `uSing` and `uPlur` are its two loops over the members of a
`Union` annotation. -/
inductive GMode where
  | root : Bool → GMode
  | uSing : GMode
  | uPlur : GMode
deriving DecidableEq, Repr

/-- Model of `ComponentFactory._get_dependency` (mode `.root singular`), together
with its union-member loops.  The singular union loop stops at the first
member that resolves, skipping members that raise `KeyError`; the plural
loop collects every member that resolves.  In both loops a `ValueError`
propagates.  A collection origin resolves its element type with
`singular=False`; any other origin yields `None`. -/
def get_dependency (reg : TypeRegistry) : GMode → DType → Except GetErr Resolved
  | .root singular, .plain t => factory_get reg t singular
  | .root _, .coll elem => get_dependency reg (.root false) elem
  | .root _, .otherOrigin => .ok .noneV
  | .root singular, .union chain =>
    if singular then
      match get_dependency reg .uSing chain with
      | .ok .noneV =>
        if unionOptional chain then .ok .noneV
        else .error (.keyError (.union chain))
      | r => r
    else
      match get_dependency reg .uPlur chain with
      | .ok (.rlist l) =>
        if l.isEmpty && !unionOptional chain then
          .error (.keyError (.union chain))
        else .ok (.rlist l)
      | r => r
  | .root _, _ => .ok .noneV
  | .uSing, .unionTyCons t rest =>
    (match get_dependency reg (.root true) t with
     | .error (.keyError _) => get_dependency reg .uSing rest
     | r => r)
  | .uSing, .unionNoneCons rest => get_dependency reg .uSing rest
  | .uSing, _ => .ok .noneV
  | .uPlur, .unionTyCons t rest =>
    (match get_dependency reg (.root true) t with
     | .error (.keyError _) => get_dependency reg .uPlur rest
     | .error e => .error e
     | .ok r =>
       match get_dependency reg .uPlur rest with
       | .ok (.rlist l) => .ok (.rlist (r :: l))
       | other => other)
  | .uPlur, .unionNoneCons rest => get_dependency reg .uPlur rest
  | .uPlur, _ => .ok (.rlist [])

/-- A constructor parameter default: an `Inject` marker (optionally pinned
to an explicit type) or anything else. -/
inductive ParamDefault where
  | inject : Option DType → ParamDefault
  | plain : ParamDefault
deriving DecidableEq, Repr

structure Param where
  name : String
  default : ParamDefault
  annot : DType
deriving DecidableEq, Repr

/-- Exceptions raised by `_inject_dependencies`. -/
inductive FactoryErr where
  | dependencyNotFound : String → DType → FactoryErr
  | ambiguousDependency : String → DType → List Inst → FactoryErr
  | indexErr : FactoryErr
deriving DecidableEq, Repr

/-- the `if isinstance(depend_on, list): extend else: append` step -/
def depItems : Resolved → List Resolved
  | .rlist l => l
  | r => [r]

/-- Model of `ComponentFactory._inject_dependencies`: walk the constructor
parameters; a parameter whose default is an `Inject` marker and whose name
is not already a kwarg is resolved (`KeyError` becomes
`DependencyNotFound`, `ValueError` becomes `AmbiguousDependency` with the
candidate list); a truthy result is stored into the kwargs and collected
into the dependency list. -/
def inject_dependencies (reg : TypeRegistry) (cname : String) :
    List Param → List (String × Resolved) → List Resolved →
    Except FactoryErr (List (String × Resolved) × List Resolved)
  | [], kwargs, deps => .ok (kwargs, deps)
  | p :: rest, kwargs, deps =>
    match p.default with
    | .plain => inject_dependencies reg cname rest kwargs deps
    | .inject tyOpt =>
      if kwargs.any (fun kv => kv.1 = p.name) then
        inject_dependencies reg cname rest kwargs deps
      else
        let depTy := tyOpt.getD p.annot
        match get_dependency reg (.root true) depTy with
        | .error (.keyError _) => .error (.dependencyNotFound cname depTy)
        | .error (.valueError l) => .error (.ambiguousDependency cname depTy l)
        | .error .indexError => .error .indexErr
        | .ok r =>
          if r.truthy then
            inject_dependencies reg cname rest
              (kwargs ++ [(p.name, r)]) (deps ++ depItems r)
          else
            inject_dependencies reg cname rest kwargs deps

/-! ### `ComponentFactory.initialize` ordering (factory.py, lines 260-306)

For the initialization order only the component names and the names of
their injected dependencies matter.  A pending component records its name
and, per injected dependency, `some` of the dependency's `name` attribute
(or `none` when the resolved object has no `name`).  `initialize` splits
pending components into those with no injected dependencies (initialized
first, in add order) and the rest, then runs the `visit` traversal.

`visit` is translated exactly as written: its membership test and its
insertion into `visited` use the variable `name` of the enclosing
`for name in has_dependencies` loop, not the `comp_name` parameter. -/

structure PendingComp where
  name : String
  deps : List (Option String)
deriving DecidableEq, Repr

def PendingComp.depNames (p : PendingComp) : List String :=
  p.deps.filterMap id

def lookupDefs (defs : List (String × List String)) (n : String) :
    Option (List String) :=
  match defs with
  | [] => none
  | (k, v) :: rest => if k = n then some v else lookupDefs rest n

/-- The inner `visit` function of `initialize`, state = (`visited`,
`to_initialize`).  `outer` is the value of the closed-over loop variable
`name`.  The fuel bound is immaterial: every call at fuel ≥ 1 returns
before recursing further once `outer` has been inserted. -/
def visit (defs : List (String × List String)) (outer : String) :
    Nat → String → List String × List String → List String × List String
  | 0, _, st => st
  | fuel + 1, comp_name, (visited, acc) =>
    if outer ∈ visited then (visited, acc)
    else
      let visited' := visited ++ [outer]
      match lookupDefs defs comp_name with
      | none => (visited', acc)
      | some deps =>
        let st := deps.foldl (fun st d => visit defs outer fuel d st)
          (visited', acc)
        (st.1, st.2 ++ [comp_name])

/-- Model of `ComponentFactory.initialize`: the order in which the pending
components' constructors are run. -/
def initialize_order (pending : List PendingComp) : List String :=
  let withDeps := pending.filter (fun p => !p.deps.isEmpty)
  let definitions := withDeps.map (fun p => (p.name, p.depNames))
  let has_dependencies := withDeps.map PendingComp.name
  let to_initialize := (pending.filter (fun p => p.deps.isEmpty)).map
    PendingComp.name
  (has_dependencies.foldl
    (fun st nm => visit definitions nm (pending.length + 2) nm st)
    ([], to_initialize)).2

/-- Whether an initialization order runs every named dependency before its
dependent, as the specification demands. -/
def respects_dependencies (pending : List PendingComp)
    (order : List String) : Bool :=
  pending.all fun p => p.depNames.all fun d =>
    order.contains d && order.contains p.name &&
      order.indexOf d < order.indexOf p.name

/-! ## `DeclarationProcessor` (processor.py)

Schema values (`args` entries, `kwargs`/`props` values) are literals,
`Reference` objects, nested component schemas, lists, or dicts.  Python
lists and dicts are encoded as chains (`vcons`/`vnil`, `dcons`/`dnil`) so
that every traversal below is plain structural recursion.  `Replaceable`
is the deferred-substitution record of `repl.py`; its effect (substituting
the value stored at a recorded container+key location) is modelled from
the spec by performing the substitution directly at the recorded position,
and a schema's `to_refer` keeps only the placeholder `Reference`s, which
is all `create_with` reads from it. -/

structure Reference where
  ref : String
  prop : Option String
deriving DecidableEq, Repr

inductive Value where
  | lit : Nat → Value
  | refv : Reference → Value
  /-- a nested `ComponentSchema`: name, cls, args, kwargs, props -/
  | comp : String → String → Value → Value → Value → Value
  | vnil : Value
  | vcons : Value → Value → Value
  | dnil : Value
  | dcons : String → Value → Value → Value
deriving DecidableEq, Repr

/-- Model of `ComponentSchema` as the processor sees it (the `cls` handle is its
dotted import name). -/
structure Schema where
  name : String
  cls : String
  args : Value
  kwargs : Value
  props : Value
  to_refer : List Reference
deriving DecidableEq, Repr

/-- Model of `DeclarationProcessor._schemas`, as an association list. -/
abbrev Registry := List (String × Schema)

def regNames (reg : Registry) : List String := reg.map Prod.fst

def lookupSchema (reg : Registry) (n : String) : Option Schema :=
  match reg with
  | [] => none
  | (k, s) :: rest => if k = n then some s else lookupSchema rest n

/-- Class reflection as consulted by `parse_field`'s type check:
`getProp cls field` is the declared origin-or-type of a reflected
property (`None` when the field is not a reflected property), and
`subclass` is `issubclass` on type handles. -/
structure ReflectionEnv where
  getProp : String → String → Option String
  subclass : String → String → Bool

/-- Validation errors of the declaration processor. -/
inductive PErr where
  | duplicateName : String → PErr
  | unknownReference : String → PErr
  | referenceTypeMismatch : String → String → PErr
  | attrError : String → PErr
  | outOfFuel : PErr
deriving DecidableEq, Repr

/-- The reference type check of `parse_field` (performed only for a
`Reference` that is a direct `props` entry, i.e. at a location of length
3 with field type `props`). -/
def typeCheck (env : ReflectionEnv) (reg : Registry) (ownerCls key : String)
    (r : Reference) : Except PErr Unit :=
  match env.getProp ownerCls key with
  | none => .ok ()
  | some expected =>
    match lookupSchema reg r.ref with
    | none => .error (.unknownReference r.ref)
    | some refSchema =>
      match r.prop with
      | some propName =>
        match env.getProp refSchema.cls propName with
        | none => .error (.attrError propName)
        | some actual =>
          if env.subclass actual expected then .ok ()
          else .error (.referenceTypeMismatch actual expected)
      | none =>
        if env.subclass refSchema.cls expected then .ok ()
        else .error (.referenceTypeMismatch refSchema.cls expected)

/-- Recursion modes of `parse_field`: `chainTop` iterates the entries of a
whole `args`/`kwargs`/`props` field (locations of length 3), `entryTop k`
processes one such direct entry stored under key `k`, `entryIn` processes
any deeper value. -/
inductive PMode where
  | chainTop : PMode
  | entryTop : String → PMode
  | entryIn : PMode
deriving DecidableEq, Repr

/-- Model of `DeclarationProcessor._process_field`, fused with the in-place
substitution that `_travel_schemas` later applies through the recorded
`Replaceable`s.  Returns the field value with every embedded
`ComponentSchema` replaced by a `Reference` to its promoted dotted name,
the list of `Reference`s recorded for later re-resolution, and the list of
extracted (renamed) child schemas, in discovery order.  A `Reference`
whose target is not registered raises; a `Reference` that is a direct
`props` entry is additionally type checked. -/
def parse_field (env : ReflectionEnv) (reg : Registry)
    (owner ownerCls : String) (isProps : Bool) :
    PMode → Value → Except PErr (Value × List Reference × List Schema)
  | .chainTop, .vcons h t => do
    let (h', r1, c1) ← parse_field env reg owner ownerCls isProps
      (.entryTop "") h
    let (t', r2, c2) ← parse_field env reg owner ownerCls isProps .chainTop t
    .ok (.vcons h' t', r1 ++ r2, c1 ++ c2)
  | .chainTop, .dcons k x t => do
    let (x', r1, c1) ← parse_field env reg owner ownerCls isProps
      (.entryTop k) x
    let (t', r2, c2) ← parse_field env reg owner ownerCls isProps .chainTop t
    .ok (.dcons k x' t', r1 ++ r2, c1 ++ c2)
  | .chainTop, v => .ok (v, [], [])
  | .entryTop k, .refv r =>
    if r.ref ∈ regNames reg then do
      (if isProps then typeCheck env reg ownerCls k r else .ok ())
      .ok (.refv r, [r], [])
    else .error (.unknownReference r.ref)
  | .entryIn, .refv r =>
    if r.ref ∈ regNames reg then .ok (.refv r, [r], [])
    else .error (.unknownReference r.ref)
  | .entryTop _, .comp n c a kw pr =>
    .ok (.refv ⟨owner ++ "." ++ n, none⟩, [],
      [⟨owner ++ "." ++ n, c, a, kw, pr, []⟩])
  | .entryIn, .comp n c a kw pr =>
    .ok (.refv ⟨owner ++ "." ++ n, none⟩, [],
      [⟨owner ++ "." ++ n, c, a, kw, pr, []⟩])
  | .entryTop _, .vcons h t => do
    let (h', r1, c1) ← parse_field env reg owner ownerCls isProps .entryIn h
    let (t', r2, c2) ← parse_field env reg owner ownerCls isProps .entryIn t
    .ok (.vcons h' t', r1 ++ r2, c1 ++ c2)
  | .entryIn, .vcons h t => do
    let (h', r1, c1) ← parse_field env reg owner ownerCls isProps .entryIn h
    let (t', r2, c2) ← parse_field env reg owner ownerCls isProps .entryIn t
    .ok (.vcons h' t', r1 ++ r2, c1 ++ c2)
  | .entryTop _, .dcons k x t => do
    let (x', r1, c1) ← parse_field env reg owner ownerCls isProps .entryIn x
    let (t', r2, c2) ← parse_field env reg owner ownerCls isProps .entryIn t
    .ok (.dcons k x' t', r1 ++ r2, c1 ++ c2)
  | .entryIn, .dcons k x t => do
    let (x', r1, c1) ← parse_field env reg owner ownerCls isProps .entryIn x
    let (t', r2, c2) ← parse_field env reg owner ownerCls isProps .entryIn t
    .ok (.dcons k x' t', r1 ++ r2, c1 ++ c2)
  | .entryTop _, v => .ok (v, [], [])
  | .entryIn, v => .ok (v, [], [])

/-- Parse the three fields of one schema (`_parse_components` body for a
single component), extending `to_refer` with the recorded references and
the `Reference`s that replaced extracted children. -/
def parseSchema (env : ReflectionEnv) (reg : Registry) (s : Schema) :
    Except PErr (Schema × List Schema) := do
  let (args', r1, c1) ← parse_field env reg s.name s.cls false .chainTop
    s.args
  let (kwargs', r2, c2) ← parse_field env reg s.name s.cls false .chainTop
    s.kwargs
  let (props', r3, c3) ← parse_field env reg s.name s.cls true .chainTop
    s.props
  let children := c1 ++ c2 ++ c3
  let childRefs : List Reference := children.map (fun c => ⟨c.name, none⟩)
  let s' : Schema :=
    { s with
      args := args'
      kwargs := kwargs'
      props := props'
      to_refer := s.to_refer ++ r1 ++ r2 ++ r3 ++ childRefs }
  .ok (s', children)

def parseAll (env : ReflectionEnv) (reg : Registry) :
    List Schema → Except PErr (List (Schema × List Schema))
  | [] => .ok []
  | s :: rest => do
    let p ← parseSchema env reg s
    let ps ← parseAll env reg rest
    .ok (p :: ps)

/-- Model of `DeclarationProcessor._register_schema`: raise on a duplicate name,
else insert. -/
def register_schema (reg : Registry) (s : Schema) : Except PErr Registry :=
  if s.name ∈ regNames reg then .error (.duplicateName s.name)
  else .ok (reg ++ [(s.name, s)])

def register_all (reg : Registry) : List Schema → Except PErr Registry
  | [] => .ok reg
  | s :: rest => do
    let reg' ← register_schema reg s
    register_all reg' rest

/-- Store the processed (flattened) version of every schema of the pass
back into the registry, mirroring the in-place mutation of the shared
schema objects. -/
def updateOwners (reg : Registry) (parsed : List Schema) : Registry :=
  reg.map fun (n, s) =>
    match parsed.find? (fun q => q.name = n) with
    | some q => (n, q)
    | none => (n, s)

/-- Model of `DeclarationProcessor._travel_schemas`: parse every schema of the
worklist against the registry as of the start of the pass, then register
the extracted children, prepend them to the component list, and recurse on
them.  `fuel` bounds the number of passes; each pass extracts children
that are strictly smaller than their owners, so any fuel of at least the
total schema size is enough and `outOfFuel` is unreachable from
`DeclarationProcessor.processor_init`. -/
def travel_schemas (env : ReflectionEnv) :
    Nat → Registry → List String → List Schema →
    Except PErr (Registry × List String)
  | 0, _, _, _ => .error .outOfFuel
  | _ + 1, reg, compNames, [] => .ok (reg, compNames)
  | fuel + 1, reg, compNames, w => do
    let parsed ← parseAll env reg w
    let children := (parsed.map Prod.snd).flatten
    let reg1 ← register_all reg children
    let reg2 := updateOwners reg1 (parsed.map Prod.fst)
    travel_schemas env fuel reg2 (children.map Schema.name ++ compNames)
      children

/-- size of a value, used to bound the number of flattening passes -/
def vsize : Value → Nat
  | .lit _ => 1
  | .refv _ => 1
  | .comp _ _ a k p => 1 + vsize a + vsize k + vsize p
  | .vnil => 1
  | .dnil => 1
  | .vcons h t => 1 + vsize h + vsize t
  | .dcons _ x t => 1 + vsize x + vsize t

def schemaSize (s : Schema) : Nat :=
  1 + vsize s.args + vsize s.kwargs + vsize s.props

/-- The processor state built by `DeclarationProcessor.__init__`. -/
structure Processor where
  schemas : Registry
  components : List String
  created : Bool
deriving DecidableEq, Repr

/-- Model of `DeclarationProcessor.__init__`: register every top-level component,
then flatten. -/
def processor_init (env : ReflectionEnv) (decl : List Schema) :
    Except PErr Processor := do
  let reg ← register_all [] decl
  let fuel := 2 + (decl.map schemaSize).sum
  let (reg', compNames) ← travel_schemas env fuel reg
    (decl.map Schema.name) decl
  .ok ⟨reg', compNames, false⟩

/-! ### `DeclarationProcessor.create_with`

The factory and the live component objects are external to the processor
(the factory is a parameter in the source); they are abstracted by
`LiveEnv`: `addC` is `factory.add` (returning the created component, which
the code indexes by its `name` attribute — components are identified by
that name here) and `getAttr` is `getattr` on a live component, `none`
standing for `AttributeError`. -/

inductive CWErr where
  /-- the `ValueError("Unable to reuse declaration")` case -/
  | reuse : CWErr
  | keyErr : String → CWErr
  | attrErr : String → CWErr
  | addErr : CWErr
  | fuelOut : CWErr
deriving DecidableEq, Repr

structure LiveEnv (σ : Type) where
  addC : Schema → σ → Except CWErr (String × σ)
  getAttr : String → String → Option String

/-- The inner `visit` of `create_with` (this one keys `visited` by
`schema_.name` correctly): visit each `to_refer` target first, then append
the schema.  State = (`visited`, `to_instantiate`). -/
def cwVisit (reg : Registry) :
    Nat → String → List String × List String →
    Except CWErr (List String × List String)
  | 0, _, _ => .error .fuelOut
  | fuel + 1, n, (visited, order) =>
    if n ∈ visited then .ok (visited, order)
    else
      match lookupSchema reg n with
      | none => .error (.keyErr n)
      | some schema_ => do
        let st ← schema_.to_refer.foldlM
          (fun st (r : Reference) =>
            match lookupSchema reg r.ref with
            | none => .error (.keyErr r.ref)
            | some rs => cwVisit reg fuel rs.name st)
          (visited ++ [n], order)
        .ok (st.1, st.2 ++ [n])

def lookupStr (m : List (String × String)) (n : String) : Option String :=
  match m with
  | [] => none
  | (k, v) :: rest => if k = n then some v else lookupStr rest n

/-- Resolve one recorded `Reference` against the components created so
far (`ref.resolve(references)`): a missing name is a `KeyError`, a `prop`
selector is `getattr` on the live component. -/
def resolveRef (σ : Type) (env : LiveEnv σ) (references : List (String × String))
    (r : Reference) : Except CWErr Unit :=
  match lookupStr references r.ref with
  | none => .error (.keyErr r.ref)
  | some c =>
    match r.prop with
    | none => .ok ()
    | some pr =>
      match env.getAttr c pr with
      | none => .error (.attrErr pr)
      | some _ => .ok ()

/-- Model of `DeclarationProcessor.create_with`.  The second component of the
result is the processor state after the call: `_created` is set to `True`
immediately after the reuse check, before any component is added, and
stays set whether or not the rest of the call succeeds. -/
def create_with (σ : Type) (env : LiveEnv σ) (p : Processor) (fst : σ) :
    Except CWErr (List String) × Processor :=
  if p.created then (.error .reuse, p)
  else
    let p' := { p with created := true }
    let body : Except CWErr (List String) := do
      let (_, order) ← p.components.foldlM
        (fun st n => cwVisit p.schemas (p.schemas.length + 1) n st)
        ([], [])
      let (comps, _, _) ← order.foldlM
        (fun (st : List String × σ × List (String × String)) n => do
          let (acc, fstate, references) := st
          match lookupSchema p.schemas n with
          | none => .error (.keyErr n)
          | some schema_ => do
            let _ ← schema_.to_refer.foldlM
              (fun _ r => resolveRef σ env references r) ()
            let (comp, fstate') ← env.addC schema_ fstate
            .ok (acc ++ [comp], fstate', references ++ [(comp, comp)]))
        ([], fst, [])
      .ok comps
    (body, p')

/-! ### Paths, reference collection and well-formedness, for stating the
flattening claims. -/

inductive PE where
  | idx : Nat → PE
  | key : String → PE
deriving DecidableEq, Repr

/-- Look up the value at a path inside a value; descends only through
lists and dicts, so a successful lookup certifies that the path crosses
no nested component schema. -/
def getPathV : Value → List PE → Option Value
  | v, [] => some v
  | .vcons h _, .idx 0 :: p => getPathV h p
  | .vcons _ t, .idx (n + 1) :: p => getPathV t (.idx n :: p)
  | .dcons k x t, .key s :: p =>
    if k = s then getPathV x p else getPathV t (.key s :: p)
  | _, _ => none

inductive FieldSel where
  | args : FieldSel
  | kwargs : FieldSel
  | props : FieldSel
deriving DecidableEq, Repr

/-- The value stored at location (field, path) of a schema. -/
def getLoc (s : Schema) : FieldSel → List PE → Option Value
  | .args, p => getPathV s.args p
  | .kwargs, p => getPathV s.kwargs p
  | .props, p => getPathV s.props p

/-- every `Reference` target occurring anywhere in a value, including
inside nested component schemas -/
def refsInValue : Value → List String
  | .lit _ => []
  | .vnil => []
  | .dnil => []
  | .refv r => [r.ref]
  | .comp _ _ a k p => refsInValue a ++ refsInValue k ++ refsInValue p
  | .vcons h t => refsInValue h ++ refsInValue t
  | .dcons _ x t => refsInValue x ++ refsInValue t

def refsInSchema (s : Schema) : List String :=
  refsInValue s.args ++ refsInValue s.kwargs ++ refsInValue s.props

def isListShape : Value → Bool
  | .vnil => true
  | .vcons _ _ => true
  | _ => false

def isDictShape : Value → Bool
  | .dnil => true
  | .dcons _ _ _ => true
  | _ => false

/-- shape constraints guaranteed by the pydantic schema model: every
nested component schema has a list-shaped `args` and dict-shaped
`kwargs`/`props` -/
def wfValue : Value → Bool
  | .lit _ => true
  | .refv _ => true
  | .vnil => true
  | .dnil => true
  | .vcons h t => wfValue h && isListShape t && wfValue t
  | .dcons _ x t => wfValue x && isDictShape t && wfValue t
  | .comp _ _ a k p =>
    isListShape a && isDictShape k && isDictShape p &&
      wfValue a && wfValue k && wfValue p

def wfSchema (s : Schema) : Bool :=
  isListShape s.args && isDictShape s.kwargs && isDictShape s.props &&
    wfValue s.args && wfValue s.kwargs && wfValue s.props

/-! ### Fixtures used by the witness theorems. -/

/-- a trivial reflection environment: no reflected properties, `issubclass`
always true -/
def trivEnv : ReflectionEnv := ⟨fun _ _ => none, fun _ _ => true⟩

/-- a schema with a component nested in its `args` -/
def sampleNested : Schema :=
  ⟨"a", "A", .vcons (.comp "b" "B" .vnil .dnil .dnil) .vnil, .dnil, .dnil, []⟩

/-- a plain schema without nesting -/
def samplePlain : Schema := ⟨"a", "A", .vnil, .dnil, .dnil, []⟩

/-- a second plain schema carrying the same name as `samplePlain` -/
def samplePlain2 : Schema := ⟨"a", "B", .vnil, .dnil, .dnil, []⟩

/-- a schema referring to component `a` from its `kwargs` -/
def sampleReferring : Schema :=
  ⟨"c", "C", .vnil, .dcons "dep" (.refv ⟨"a", none⟩) .dnil, .dnil, []⟩

/-- a trivial live environment over a unit factory state -/
def trivLive : LiveEnv Unit :=
  ⟨fun s u => .ok (s.name, u), fun _ _ => none⟩

/-! ## Theorems -/

theorem exceptBind_ok {ε α β : Type _} {x : Except ε α} {f : α → Except ε β}
    {b : β} (h : x >>= f = .ok b) : ∃ a, x = .ok a ∧ f a = .ok b := by
  cases x with
  | ok a => exact ⟨a, rfl, h⟩
  | error e => exact absurd h (by simp [Bind.bind, Except.bind])

/-- C5: setting a `Property`'s value stores the new value and dispatches
exactly one change event, carrying the sender, the newly assigned value
and the previous value — also when the new value equals the previous one,
since no case of `_set_value` compares them. -/
theorem property_set_dispatches_one_event {α : Type} (p : PropertyImpl α)
    (v : α) :
    (p.set_value v).dispatched = p.dispatched ++ [⟨p.selfId, v, p.value⟩] ∧
    (p.set_value v).value = v :=
  ⟨rfl, rfl⟩

/-- C9: adding a component whose name is already present fails with the
duplicate-name error and returns the container contents unchanged — the
raise happens before the insertion, so no partial mutation is
observable. -/
theorem container_duplicate_add (c : ComponentContainer) (comp : Comp)
    (h : comp.name ∈ c.names) :
    c.add comp = (.error (.duplicateComponentName comp.name), c) := by
  simp [ComponentContainer.add, h]

/-- witness for C9: a second add of the name `x` fails and leaves the
container as it was after the first add. -/
theorem container_duplicate_add_witness :
    ComponentContainer.add [] ⟨"x", 1⟩ = (.ok (), [("x", ⟨"x", 1⟩)]) ∧
    ("x" : String) ∈ ComponentContainer.names [("x", ⟨"x", 1⟩)] ∧
    ComponentContainer.add [("x", ⟨"x", 1⟩)] ⟨"x", 2⟩ =
      (.error (.duplicateComponentName "x"), [("x", ⟨"x", 1⟩)]) :=
  ⟨rfl, by decide, container_duplicate_add [("x", ⟨"x", 1⟩)] ⟨"x", 2⟩
    (by decide)⟩

/-- C6 counterexample: a reflected property with a nullable declared type
but no class-level default and no `props` entry is rejected by
`validate_schema`, although the claim's acceptance condition (no entry,
no default AND non-nullable) says it must be accepted: `validate_schema`
never consults nullability. -/
theorem validate_schema_nullable_counterexample :
    validate_schema [⟨"temperature", .missing, true⟩] [] [] =
      .error (.missingDefaultPropertyValue "temperature") ∧
    claimedAccepts [⟨"temperature", .missing, true⟩] [] [] = true :=
  ⟨rfl, rfl⟩

theorem validateProps_ok_iff (propsKeys : List String)
    (l : List FieldReflection) :
    validateProps propsKeys l = .ok () ↔
      ∀ f ∈ l, f.name ∈ propsKeys ∨
        (f.default ≠ .missing ∧ f.default ≠ .input) := by
  induction l with
  | nil => simp [validateProps]
  | cons f rest ih =>
    by_cases hf : f.name ∈ propsKeys
    · simp [validateProps, hf, ih]
    · cases hd : f.default <;>
        simp [validateProps, hf, hd, ih]

theorem validateEvents_ok_iff (propsKeys : List String)
    (l : List FieldReflection) :
    validateEvents propsKeys l = .ok () ↔
      ∀ f ∈ l, f.name ∈ propsKeys ∨ f.default ≠ .input := by
  induction l with
  | nil => simp [validateEvents]
  | cons f rest ih =>
    by_cases hf : f.name ∈ propsKeys
    · simp [validateEvents, hf, ih]
    · by_cases hd : f.default = .input <;>
        simp [validateEvents, hf, hd, ih]

/-- C6 (amended): `ComponentSchema.validate_schema` accepts exactly when
every reflected property either has a `props` entry or has a class-level
default that is not an `Input` marker, and every reflected event field
with an `Input` class default has a `props` entry.  The nullability of
the declared type is not consulted at schema construction (only
`_resolve_field` in the factory considers it). -/
theorem validate_schema_characterization
    (properties events : List FieldReflection) (propsKeys : List String) :
    validate_schema properties events propsKeys = .ok () ↔
      ((∀ f ∈ properties, f.name ∈ propsKeys ∨
          (f.default ≠ .missing ∧ f.default ≠ .input)) ∧
       (∀ f ∈ events, f.name ∈ propsKeys ∨ f.default ≠ .input)) := by
  constructor
  · intro h
    obtain ⟨u, hu, hv⟩ := exceptBind_ok (x := validateProps propsKeys
      properties) h
    cases u
    exact ⟨(validateProps_ok_iff _ _).mp hu,
      (validateEvents_ok_iff _ _).mp hv⟩
  · rintro ⟨h1, h2⟩
    have hu := (validateProps_ok_iff propsKeys properties).mpr h1
    have hv := (validateEvents_ok_iff propsKeys events).mpr h2
    simp [validate_schema, hu, hv, Bind.bind, Except.bind]

/-- C1: the `initialize` ordering does not run dependencies first.  With
pending components `a` (depending on `b`), `b` (depending on `c`) and `c`
(no dependencies), added in that order, the code initializes `c, a, b`:
`a` runs before its dependency `b`, because `visit` tests and updates the
closed-over loop variable `name` instead of its parameter `comp_name`, so
the traversal never descends into dependencies.  This contradicts the
method's own docstring ("components are sorted before hand based on the
dependency graph"). -/
theorem initialize_order_bug :
    initialize_order [⟨"a", [some "b"]⟩, ⟨"b", [some "c"]⟩, ⟨"c", []⟩] =
      ["c", "a", "b"] ∧
    respects_dependencies
      [⟨"a", [some "b"]⟩, ⟨"b", [some "c"]⟩, ⟨"c", []⟩]
      ["c", "a", "b"] = false :=
  ⟨by decide, by decide⟩

/-- C10: `create_with` is single-use.  A call on a processor whose
`_created` flag is set fails with the reuse error and changes nothing;
and any call — whatever the factory does and whether or not the body
succeeds — leaves the flag set, because it is set immediately after the
check, before any component is added. -/
theorem create_with_single_use (σ : Type) (env : LiveEnv σ) (p : Processor)
    (fst : σ) :
    (p.created = true → create_with σ env p fst = (.error .reuse, p)) ∧
    ((create_with σ env p fst).2.created = true) := by
  constructor
  · intro h
    simp [create_with, h]
  · by_cases h : p.created = true
    · simp [create_with, h]
    · simp only [Bool.not_eq_true] at h
      simp [create_with, h]

/-- witness for C10: a used processor rejects a second `create_with`, and
a fresh processor's flag is set by the call. -/
theorem create_with_single_use_witness :
    (Processor.created ⟨[("a", samplePlain)], ["a"], true⟩ = true) ∧
    create_with Unit trivLive ⟨[("a", samplePlain)], ["a"], true⟩ () =
      (.error .reuse, ⟨[("a", samplePlain)], ["a"], true⟩) ∧
    (create_with Unit trivLive ⟨[("a", samplePlain)], ["a"], false⟩
      ()).2.created = true :=
  ⟨rfl,
   (create_with_single_use Unit trivLive ⟨[("a", samplePlain)], ["a"], true⟩
     ()).1 rfl,
   (create_with_single_use Unit trivLive ⟨[("a", samplePlain)], ["a"], false⟩
     ()).2⟩

/-- C3: an inject-marked constructor parameter not overridden by a kwarg,
requesting a plain type `t` (either through its annotation or through the
pinned `Inject` type): exactly one instance indexed under `t` resolves to
that instance (stored into the kwargs and collected as a dependency);
no instance raises `DependencyNotFound`; more than one instance raises
`AmbiguousDependency` carrying the full candidate list. -/
theorem inject_singular_resolution (reg : TypeRegistry) (cname : String)
    (p : Param) (kwargs : List (String × Resolved)) (deps : List Resolved)
    (t : String)
    (hinj : p.default = .inject none ∧ p.annot = .plain t ∨
      p.default = .inject (some (.plain t)))
    (hnk : kwargs.any (fun kv => kv.1 = p.name) = false) :
    (∀ x, lookupTy reg t = some [x] →
      inject_dependencies reg cname [p] kwargs deps =
        .ok (kwargs ++ [(p.name, .inst x)], deps ++ [.inst x])) ∧
    (lookupTy reg t = none →
      inject_dependencies reg cname [p] kwargs deps =
        .error (.dependencyNotFound cname (.plain t))) ∧
    (∀ l, lookupTy reg t = some l → 1 < l.length →
      inject_dependencies reg cname [p] kwargs deps =
        .error (.ambiguousDependency cname (.plain t) l)) := by
  have hty : ∃ tyOpt, p.default = .inject tyOpt ∧ tyOpt.getD p.annot =
      .plain t := by
    rcases hinj with ⟨h1, h2⟩ | h1
    · exact ⟨none, h1, h2⟩
    · exact ⟨some (.plain t), h1, rfl⟩
  obtain ⟨tyOpt, hdef, hgd⟩ := hty
  refine ⟨fun x hx => ?_, fun hx => ?_, fun l hx hl => ?_⟩
  · simp [inject_dependencies, hdef, hnk, hgd, get_dependency, factory_get,
      hx, Resolved.truthy, depItems]
  · simp [inject_dependencies, hdef, hnk, hgd, get_dependency, factory_get,
      hx]
  · simp [inject_dependencies, hdef, hnk, hgd, get_dependency, factory_get,
      hx, hl]

/-- witness for C3: one, zero and two registered instances of `T`. -/
theorem inject_singular_resolution_witness :
    (lookupTy (save_component_type [] ["T", "object"] ⟨some "x", 1⟩) "T" =
      some [⟨some "x", 1⟩]) ∧
    inject_dependencies (save_component_type [] ["T", "object"]
        ⟨some "x", 1⟩) "c" [⟨"p", .inject none, .plain "T"⟩] [] [] =
      .ok ([("p", .inst ⟨some "x", 1⟩)], [.inst ⟨some "x", 1⟩]) ∧
    inject_dependencies [] "c" [⟨"p", .inject none, .plain "T"⟩] [] [] =
      .error (.dependencyNotFound "c" (.plain "T")) ∧
    inject_dependencies (save_component_type (save_component_type []
        ["T", "object"] ⟨some "x", 1⟩) ["T", "object"] ⟨some "y", 2⟩) "c"
        [⟨"p", .inject none, .plain "T"⟩] [] [] =
      .error (.ambiguousDependency "c" (.plain "T")
        [⟨some "x", 1⟩, ⟨some "y", 2⟩]) :=
  ⟨by decide,
   (inject_singular_resolution _ "c" _ [] [] "T" (.inl ⟨rfl, rfl⟩) rfl).1
     ⟨some "x", 1⟩ (by decide),
   (inject_singular_resolution _ "c" _ [] [] "T" (.inl ⟨rfl, rfl⟩) rfl).2.1
     (by decide),
   (inject_singular_resolution _ "c" _ [] [] "T" (.inl ⟨rfl, rfl⟩)
     rfl).2.2 [⟨some "x", 1⟩, ⟨some "y", 2⟩] (by decide) (by decide)⟩

/-- C4 counterexample: an inject-marked parameter requesting a collection
of `T` with zero registered instances of `T` raises `DependencyNotFound`
(`_get` raises `KeyError` for an unindexed type regardless of the
`singular` flag), contradicting the claim that an empty collection is
returned. -/
theorem collection_inject_empty_raises :
    inject_dependencies [] "c" [⟨"p", .inject none, .coll (.plain "T")⟩]
        [] [] =
      .error (.dependencyNotFound "c" (.coll (.plain "T"))) :=
  rfl

/-- C4 (amended): an inject-marked parameter requesting a collection of
`T` resolves to the list of all instances indexed under `T` when at least
one is registered; when zero are registered it raises
`DependencyNotFound` instead of producing an empty collection. -/
theorem collection_inject_resolution (reg : TypeRegistry) (cname : String)
    (p : Param) (kwargs : List (String × Resolved)) (deps : List Resolved)
    (t : String)
    (hinj : p.default = .inject none ∧ p.annot = .coll (.plain t) ∨
      p.default = .inject (some (.coll (.plain t))))
    (hnk : kwargs.any (fun kv => kv.1 = p.name) = false) :
    (∀ l, lookupTy reg t = some l → l ≠ [] →
      inject_dependencies reg cname [p] kwargs deps =
        .ok (kwargs ++ [(p.name, .rlist (l.map .inst))],
          deps ++ l.map .inst)) ∧
    (lookupTy reg t = none →
      inject_dependencies reg cname [p] kwargs deps =
        .error (.dependencyNotFound cname (.coll (.plain t)))) := by
  have hty : ∃ tyOpt, p.default = .inject tyOpt ∧ tyOpt.getD p.annot =
      .coll (.plain t) := by
    rcases hinj with ⟨h1, h2⟩ | h1
    · exact ⟨none, h1, h2⟩
    · exact ⟨some (.coll (.plain t)), h1, rfl⟩
  obtain ⟨tyOpt, hdef, hgd⟩ := hty
  refine ⟨fun l hx hl => ?_, fun hx => ?_⟩
  · simp [inject_dependencies, hdef, hnk, hgd, get_dependency, factory_get,
      hx, Resolved.truthy, depItems, List.isEmpty_iff, hl]
  · simp [inject_dependencies, hdef, hnk, hgd, get_dependency, factory_get,
      hx]

/-! ### Registry lemmas for the declaration-processor claims -/

theorem lookupSchema_eq_none {reg : Registry} {n : String} :
    lookupSchema reg n = none ↔ n ∉ regNames reg := by
  induction reg with
  | nil => simp [lookupSchema, regNames]
  | cons e rest ih =>
    obtain ⟨k, s⟩ := e
    have hr : regNames ((k, s) :: rest) = k :: regNames rest := rfl
    rw [hr]
    by_cases h : k = n
    · subst h; simp [lookupSchema]
    · rw [lookupSchema, if_neg h, ih, List.mem_cons]
      constructor
      · intro hn
        push_neg
        exact ⟨fun he => h he.symm, hn⟩
      · intro hn
        push_neg at hn
        exact hn.2

theorem lookupSchema_mem_names {reg : Registry} {n : String} {s : Schema}
    (h : lookupSchema reg n = some s) : n ∈ regNames reg := by
  by_contra hc
  rw [← lookupSchema_eq_none] at hc
  simp [h] at hc

theorem lookupSchema_of_mem_names {reg : Registry} {n : String}
    (h : n ∈ regNames reg) : ∃ s, lookupSchema reg n = some s := by
  cases hl : lookupSchema reg n with
  | none => exact absurd (lookupSchema_eq_none.mp hl) (by simp [h])
  | some s => exact ⟨s, rfl⟩

theorem lookupSchema_some_mem {reg : Registry} {n : String} {s : Schema}
    (h : lookupSchema reg n = some s) : (n, s) ∈ reg := by
  induction reg with
  | nil => simp [lookupSchema] at h
  | cons e rest ih =>
    obtain ⟨k, x⟩ := e
    by_cases hk : k = n
    · subst hk
      simp [lookupSchema] at h
      subst h
      exact List.mem_cons_self _ _
    · rw [lookupSchema, if_neg hk] at h
      exact List.mem_cons_of_mem _ (ih h)

theorem lookupSchema_append_left {reg : Registry} {n : String} {s : Schema}
    (l : Registry) (h : lookupSchema reg n = some s) :
    lookupSchema (reg ++ l) n = some s := by
  induction reg with
  | nil => simp [lookupSchema] at h
  | cons e rest ih =>
    obtain ⟨k, x⟩ := e
    by_cases hk : k = n <;> simp_all [lookupSchema]

theorem lookupSchema_append_right {reg : Registry} {n : String}
    (l : Registry) (h : lookupSchema reg n = none) :
    lookupSchema (reg ++ l) n = lookupSchema l n := by
  induction reg with
  | nil => simp
  | cons e rest ih =>
    obtain ⟨k, x⟩ := e
    by_cases hk : k = n <;> simp_all [lookupSchema]

theorem register_schema_ok {reg reg' : Registry} {s : Schema}
    (h : register_schema reg s = .ok reg') :
    reg' = reg ++ [(s.name, s)] ∧ s.name ∉ regNames reg := by
  by_cases hc : s.name ∈ regNames reg <;> simp [register_schema, hc] at h
  exact ⟨h.symm, hc⟩

theorem register_all_ok_entries :
    ∀ {l : List Schema} {reg reg' : Registry},
    register_all reg l = .ok reg' →
    reg' = reg ++ l.map (fun s => (s.name, s)) := by
  intro l
  induction l with
  | nil =>
    intro reg reg' h
    simp [register_all] at h
    simp [h]
  | cons s rest ih =>
    intro reg reg' h
    obtain ⟨reg1, h1, h2⟩ := exceptBind_ok h
    obtain ⟨he, _⟩ := register_schema_ok h1
    subst he
    simpa [List.append_assoc] using ih h2

theorem register_all_names {l : List Schema} {reg reg' : Registry}
    (h : register_all reg l = .ok reg') :
    regNames reg' = regNames reg ++ l.map Schema.name := by
  rw [register_all_ok_entries h]
  simp [regNames]

theorem register_all_fresh :
    ∀ {l : List Schema} {reg reg' : Registry},
    register_all reg l = .ok reg' →
    ∀ c ∈ l, c.name ∉ regNames reg := by
  intro l
  induction l with
  | nil => intro reg reg' _ c hc; simp at hc
  | cons s rest ih =>
    intro reg reg' h c hc
    obtain ⟨reg1, h1, h2⟩ := exceptBind_ok h
    obtain ⟨he, hfresh⟩ := register_schema_ok h1
    rcases List.mem_cons.mp hc with hcs | hcr
    · subst hcs; exact hfresh
    · have hn := ih h2 c hcr
      rw [he] at hn
      intro hmem
      apply hn
      have hnames : regNames (reg ++ [(s.name, s)]) =
          regNames reg ++ [s.name] := by simp [regNames]
      rw [hnames]
      exact List.mem_append_left _ hmem

theorem register_all_preserves :
    ∀ {l : List Schema} {reg reg' : Registry},
    register_all reg l = .ok reg' →
    ∀ {n : String} {s : Schema}, lookupSchema reg n = some s →
    lookupSchema reg' n = some s := by
  intro l
  induction l with
  | nil =>
    intro reg reg' h n s hl
    simp [register_all] at h
    rwa [← h]
  | cons c rest ih =>
    intro reg reg' h n s hl
    obtain ⟨reg1, h1, h2⟩ := exceptBind_ok h
    obtain ⟨he, _⟩ := register_schema_ok h1
    subst he
    exact ih h2 (lookupSchema_append_left _ hl)

theorem register_all_new :
    ∀ {l : List Schema} {reg reg' : Registry},
    register_all reg l = .ok reg' →
    ∀ c ∈ l, lookupSchema reg' c.name = some c := by
  intro l
  induction l with
  | nil => intro reg reg' _ c hc; simp at hc
  | cons s rest ih =>
    intro reg reg' h c hc
    obtain ⟨reg1, h1, h2⟩ := exceptBind_ok h
    obtain ⟨he, hfresh⟩ := register_schema_ok h1
    rcases List.mem_cons.mp hc with hcs | hcr
    · subst hcs
      have hnone : lookupSchema reg c.name = none :=
        lookupSchema_eq_none.mpr hfresh
      have h0 : lookupSchema reg1 c.name = some c := by
        rw [he, lookupSchema_append_right _ hnone]
        simp [lookupSchema]
      exact register_all_preserves h2 h0
    · exact ih h2 c hcr

theorem register_all_nodup {l : List Schema} {reg reg' : Registry}
    (h : register_all reg l = .ok reg') (hnd : (regNames reg).Nodup) :
    (regNames reg').Nodup := by
  induction l generalizing reg with
  | nil =>
    simp [register_all] at h
    rwa [← h]
  | cons s rest ih =>
    obtain ⟨reg1, h1, h2⟩ := exceptBind_ok h
    obtain ⟨he, hfresh⟩ := register_schema_ok h1
    refine ih h2 ?_
    rw [he]
    have hnames : regNames (reg ++ [(s.name, s)]) =
        regNames reg ++ [s.name] := by simp [regNames]
    rw [hnames]
    refine List.Nodup.append hnd (List.nodup_singleton _) ?_
    intro a ha hb
    rw [List.mem_singleton] at hb
    subst hb
    exact hfresh ha

theorem register_all_dup :
    ∀ (l : List Schema) (reg : Registry),
    (regNames reg).Nodup →
    ¬ (regNames reg ++ l.map Schema.name).Nodup →
    ∃ nm, register_all reg l = .error (.duplicateName nm) := by
  intro l
  induction l with
  | nil =>
    intro reg hnd h
    exact absurd (by simpa using hnd) h
  | cons s rest ih =>
    intro reg hnd h
    by_cases hc : s.name ∈ regNames reg
    · refine ⟨s.name, ?_⟩
      have hrs : register_schema reg s = .error (.duplicateName s.name) := by
        simp [register_schema, hc]
      simp [register_all, hrs, Bind.bind, Except.bind]
    · have hrs : register_schema reg s = .ok (reg ++ [(s.name, s)]) := by
        simp [register_schema, hc]
      have hnames : regNames (reg ++ [(s.name, s)]) =
          regNames reg ++ [s.name] := by simp [regNames]
      have hnd1 : (regNames (reg ++ [(s.name, s)])).Nodup := by
        rw [hnames]
        simp [List.nodup_append, hnd]
        exact fun h' => hc h'
      have h1 : ¬ (regNames (reg ++ [(s.name, s)]) ++
          rest.map Schema.name).Nodup := by
        rw [hnames, List.append_assoc]
        simpa using h
      obtain ⟨nm, hr⟩ := ih _ hnd1 h1
      refine ⟨nm, ?_⟩
      simp [register_all, hrs, Bind.bind, Except.bind, hr]

theorem updateOwners_names (reg : Registry) (parsed : List Schema) :
    regNames (updateOwners reg parsed) = regNames reg := by
  induction reg with
  | nil => rfl
  | cons e rest ih =>
    obtain ⟨k, s⟩ := e
    cases h : parsed.find? (fun q => q.name = k) <;>
      simp [updateOwners, regNames, h] <;>
      simpa [updateOwners, regNames] using ih

theorem updateOwners_lookup (reg : Registry) (parsed : List Schema)
    (n : String) :
    lookupSchema (updateOwners reg parsed) n =
      (lookupSchema reg n).map (fun s =>
        match parsed.find? (fun q => q.name = n) with
        | some q => q
        | none => s) := by
  induction reg with
  | nil => simp [updateOwners, lookupSchema]
  | cons e rest ih =>
    obtain ⟨k, s⟩ := e
    have hstep : updateOwners ((k, s) :: rest) parsed =
        ((match parsed.find? (fun q => q.name = k) with
          | some q => (k, q)
          | none => (k, s)) :: updateOwners rest parsed) := rfl
    rw [hstep]
    by_cases h : k = n
    · subst h
      cases hf : parsed.find? (fun q => q.name = k) <;>
        simp [lookupSchema, hf]
    · cases hf : parsed.find? (fun q => q.name = k) <;>
        simp [lookupSchema, h, ih]

/-! ### Inversion lemmas for `parseSchema` and `parseAll` -/

theorem parseSchema_ok_inv {env : ReflectionEnv} {reg : Registry}
    {s s' : Schema} {ch : List Schema}
    (h : parseSchema env reg s = .ok (s', ch)) :
    ∃ a1 r1 c1 a2 r2 c2 a3 r3 c3,
      parse_field env reg s.name s.cls false .chainTop s.args =
        .ok (a1, r1, c1) ∧
      parse_field env reg s.name s.cls false .chainTop s.kwargs =
        .ok (a2, r2, c2) ∧
      parse_field env reg s.name s.cls true .chainTop s.props =
        .ok (a3, r3, c3) ∧
      s'.name = s.name ∧ s'.cls = s.cls ∧
      s'.args = a1 ∧ s'.kwargs = a2 ∧ s'.props = a3 ∧
      ch = c1 ++ c2 ++ c3 := by
  unfold parseSchema at h
  obtain ⟨x1, h1, h⟩ := exceptBind_ok h
  obtain ⟨a1, r1, c1⟩ := x1
  obtain ⟨x2, h2, h⟩ := exceptBind_ok h
  obtain ⟨a2, r2, c2⟩ := x2
  obtain ⟨x3, h3, h⟩ := exceptBind_ok h
  obtain ⟨a3, r3, c3⟩ := x3
  simp only [Except.ok.injEq, Prod.mk.injEq] at h
  obtain ⟨hs, hch⟩ := h
  refine ⟨a1, r1, c1, a2, r2, c2, a3, r3, c3, h1, h2, h3, ?_, ?_, ?_, ?_,
    ?_, hch.symm⟩ <;> rw [← hs]

theorem parseSchema_name {env : ReflectionEnv} {reg : Registry}
    {s s' : Schema} {ch : List Schema}
    (h : parseSchema env reg s = .ok (s', ch)) : s'.name = s.name := by
  obtain ⟨_, _, _, _, _, _, _, _, _, _, _, _, hn, _⟩ := parseSchema_ok_inv h
  exact hn

theorem parseAll_cons_inv {env : ReflectionEnv} {reg : Registry}
    {s : Schema} {rest : List Schema} {parsed : List (Schema × List Schema)}
    (h : parseAll env reg (s :: rest) = .ok parsed) :
    ∃ pr ps, parseSchema env reg s = .ok pr ∧
      parseAll env reg rest = .ok ps ∧ parsed = pr :: ps := by
  unfold parseAll at h
  obtain ⟨pr, h1, h⟩ := exceptBind_ok h
  obtain ⟨ps, h2, h⟩ := exceptBind_ok h
  simp only [Except.ok.injEq] at h
  exact ⟨pr, ps, h1, h2, h.symm⟩

theorem parseAll_mem {env : ReflectionEnv} {reg : Registry} :
    ∀ {w : List Schema} {parsed : List (Schema × List Schema)} {s : Schema},
    parseAll env reg w = .ok parsed → s ∈ w →
    ∃ pr, pr ∈ parsed ∧ parseSchema env reg s = .ok pr := by
  intro w
  induction w with
  | nil => intro parsed s _ hs; simp at hs
  | cons w0 rest ih =>
    intro parsed s h hs
    obtain ⟨pr, ps, h1, h2, hp⟩ := parseAll_cons_inv h
    subst hp
    rcases List.mem_cons.mp hs with hs0 | hsr
    · subst hs0; exact ⟨pr, List.mem_cons_self _ _, h1⟩
    · obtain ⟨pr', hm, hp'⟩ := ih h2 hsr
      exact ⟨pr', List.mem_cons_of_mem _ hm, hp'⟩

theorem parseAll_mem2 {env : ReflectionEnv} {reg : Registry} :
    ∀ {w : List Schema} {parsed : List (Schema × List Schema)}
      {pr : Schema × List Schema},
    parseAll env reg w = .ok parsed → pr ∈ parsed →
    ∃ s, s ∈ w ∧ parseSchema env reg s = .ok pr := by
  intro w
  induction w with
  | nil =>
    intro parsed pr h hm
    simp [parseAll] at h
    subst h
    simp at hm
  | cons w0 rest ih =>
    intro parsed pr h hm
    obtain ⟨pr0, ps, h1, h2, hp⟩ := parseAll_cons_inv h
    subst hp
    rcases List.mem_cons.mp hm with hm0 | hmr
    · subst hm0; exact ⟨w0, List.mem_cons_self _ _, h1⟩
    · obtain ⟨s, hs, hp'⟩ := ih h2 hmr
      exact ⟨s, List.mem_cons_of_mem _ hs, hp'⟩

theorem parseAll_owner_names {env : ReflectionEnv} {reg : Registry} :
    ∀ {w : List Schema} {parsed : List (Schema × List Schema)},
    parseAll env reg w = .ok parsed →
    (parsed.map fun pr => pr.1.name) = w.map Schema.name := by
  intro w
  induction w with
  | nil =>
    intro parsed h
    simp [parseAll] at h
    subst h
    rfl
  | cons w0 rest ih =>
    intro parsed h
    obtain ⟨pr, ps, h1, h2, hp⟩ := parseAll_cons_inv h
    subst hp
    simp [parseSchema_name h1, ih h2]

theorem parseAll_find {env : ReflectionEnv} {reg : Registry} :
    ∀ {w : List Schema} {parsed : List (Schema × List Schema)} {s : Schema}
      {pr : Schema × List Schema},
    parseAll env reg w = .ok parsed → (w.map Schema.name).Nodup →
    s ∈ w → parseSchema env reg s = .ok pr →
    (parsed.map Prod.fst).find? (fun q => q.name = s.name) = some pr.1 := by
  intro w
  induction w with
  | nil => intro parsed s pr _ _ hs; simp at hs
  | cons w0 rest ih =>
    intro parsed s pr h hnd hs hps
    obtain ⟨pr0, ps, h1, h2, hp⟩ := parseAll_cons_inv h
    subst hp
    rcases List.mem_cons.mp hs with hs0 | hsr
    · subst hs0
      rw [hps] at h1
      injection h1 with h1
      subst h1
      have hname : pr.1.name = s.name := parseSchema_name hps
      simp [List.find?_cons_of_pos, hname]
    · have hne : w0.name ≠ s.name := by
        have h0 : w0.name ∉ rest.map Schema.name := by
          simp [List.nodup_cons] at hnd
          intro hmem
          rcases List.mem_map.mp hmem with ⟨x, hx, he⟩
          exact hnd.1 x hx he
        intro he
        apply h0
        rw [he]
        exact List.mem_map.mpr ⟨s, hsr, rfl⟩
      have hnd' : (rest.map Schema.name).Nodup := (List.nodup_cons.mp hnd).2
      have hname0 : pr0.1.name = w0.name := parseSchema_name h1
      have hfind := ih h2 hnd' hsr hps
      simp only [List.map_cons]
      rw [List.find?_cons_of_neg, hfind]
      simp [hname0, hne]

/-! ### The `parse_field` induction lemmas -/

/-- Every reference occurring in a successfully parsed value either was
already registered (the parse checked it) or sits inside one of the
extracted children (to be checked when the child's pass runs); and every
extracted child is well-formed. -/
theorem parse_field_refs {env : ReflectionEnv} {reg : Registry}
    {owner ownerCls : String} {isProps : Bool} :
    ∀ (v : Value) (mode : PMode) {v' : Value} {refs : List Reference}
      {ch : List Schema},
    parse_field env reg owner ownerCls isProps mode v = .ok (v', refs, ch) →
    wfValue v = true →
    (mode = .chainTop → (isListShape v || isDictShape v) = true) →
    (∀ r ∈ refsInValue v, r ∈ regNames reg ∨ ∃ c ∈ ch, r ∈ refsInSchema c) ∧
    (∀ c ∈ ch, wfSchema c = true) := by
  intro v
  induction v with
  | lit n =>
    intro mode v' refs ch hp _ _
    cases mode <;>
      simp only [parse_field, Except.ok.injEq, Prod.mk.injEq] at hp <;>
      obtain ⟨_, _, hc⟩ := hp <;> subst hc <;>
      exact ⟨by simp [refsInValue], by simp⟩
  | refv r =>
    intro mode v' refs ch hp _ hshape
    cases mode with
    | chainTop => exact absurd (hshape rfl) (by simp [isListShape, isDictShape])
    | entryTop k =>
      simp only [parse_field] at hp
      by_cases hm : r.ref ∈ regNames reg
      · rw [if_pos hm] at hp
        obtain ⟨u, _, hp⟩ := exceptBind_ok hp
        simp only [Except.ok.injEq, Prod.mk.injEq] at hp
        obtain ⟨_, _, hc⟩ := hp
        subst hc
        refine ⟨?_, by simp⟩
        intro x hx
        simp [refsInValue] at hx
        subst hx
        exact .inl hm
      · rw [if_neg hm] at hp
        exact absurd hp (by simp)
    | entryIn =>
      simp only [parse_field] at hp
      by_cases hm : r.ref ∈ regNames reg
      · rw [if_pos hm] at hp
        simp only [Except.ok.injEq, Prod.mk.injEq] at hp
        obtain ⟨_, _, hc⟩ := hp
        subst hc
        refine ⟨?_, by simp⟩
        intro x hx
        simp [refsInValue] at hx
        subst hx
        exact .inl hm
      · rw [if_neg hm] at hp
        exact absurd hp (by simp)
  | comp nm c a kw pr iha ihk ihp =>
    intro mode v' refs ch hp hw hshape
    cases mode with
    | chainTop => exact absurd (hshape rfl) (by simp [isListShape, isDictShape])
    | entryTop k =>
      simp only [parse_field, Except.ok.injEq, Prod.mk.injEq] at hp
      obtain ⟨_, _, hc⟩ := hp
      subst hc
      simp only [wfValue, Bool.and_eq_true] at hw
      refine ⟨fun r hr => .inr ⟨_, List.mem_singleton_self _, ?_⟩, ?_⟩
      · simpa [refsInValue, refsInSchema] using hr
      · intro cc hcc
        rw [List.mem_singleton] at hcc
        subst hcc
        simp [wfSchema]
        tauto
    | entryIn =>
      simp only [parse_field, Except.ok.injEq, Prod.mk.injEq] at hp
      obtain ⟨_, _, hc⟩ := hp
      subst hc
      simp only [wfValue, Bool.and_eq_true] at hw
      refine ⟨fun r hr => .inr ⟨_, List.mem_singleton_self _, ?_⟩, ?_⟩
      · simpa [refsInValue, refsInSchema] using hr
      · intro cc hcc
        rw [List.mem_singleton] at hcc
        subst hcc
        simp [wfSchema]
        tauto
  | vnil =>
    intro mode v' refs ch hp _ _
    cases mode <;>
      simp only [parse_field, Except.ok.injEq, Prod.mk.injEq] at hp <;>
      obtain ⟨_, _, hc⟩ := hp <;> subst hc <;>
      exact ⟨by simp [refsInValue], by simp⟩
  | dnil =>
    intro mode v' refs ch hp _ _
    cases mode <;>
      simp only [parse_field, Except.ok.injEq, Prod.mk.injEq] at hp <;>
      obtain ⟨_, _, hc⟩ := hp <;> subst hc <;>
      exact ⟨by simp [refsInValue], by simp⟩
  | vcons h t ihh iht =>
    intro mode v' refs ch hp hw hshape
    simp only [wfValue, Bool.and_eq_true] at hw
    obtain ⟨⟨hwh, hsht⟩, hwt⟩ := hw
    have main :
        ∀ {mh mt : PMode} {h1 t1 : Value} {r1 r2 : List Reference}
          {c1 c2 : List Schema},
        parse_field env reg owner ownerCls isProps mh h = .ok (h1, r1, c1) →
        parse_field env reg owner ownerCls isProps mt t = .ok (t1, r2, c2) →
        (mh = .chainTop → (isListShape h || isDictShape h) = true) →
        (mt = .chainTop → (isListShape t || isDictShape t) = true) →
        ch = c1 ++ c2 →
        (∀ r ∈ refsInValue (.vcons h t),
          r ∈ regNames reg ∨ ∃ c ∈ ch, r ∈ refsInSchema c) ∧
        (∀ c ∈ ch, wfSchema c = true) := by
      intro mh mt h1 t1 r1 r2 c1 c2 hph hpt hsh hst hch
      obtain ⟨ph1, ph2⟩ := ihh mh hph hwh hsh
      obtain ⟨pt1, pt2⟩ := iht mt hpt hwt hst
      subst hch
      constructor
      · intro r hr
        simp only [refsInValue, List.mem_append] at hr
        rcases hr with hr | hr
        · rcases ph1 r hr with hl | ⟨cc, hcc, hrc⟩
          · exact .inl hl
          · exact .inr ⟨cc, List.mem_append_left _ hcc, hrc⟩
        · rcases pt1 r hr with hl | ⟨cc, hcc, hrc⟩
          · exact .inl hl
          · exact .inr ⟨cc, List.mem_append_right _ hcc, hrc⟩
      · intro cc hcc
        rcases List.mem_append.mp hcc with hcc | hcc
        · exact ph2 cc hcc
        · exact pt2 cc hcc
    cases mode with
    | chainTop =>
      simp only [parse_field] at hp
      obtain ⟨x1, hp1, hp⟩ := exceptBind_ok hp
      obtain ⟨h1, r1, c1⟩ := x1
      obtain ⟨x2, hp2, hp⟩ := exceptBind_ok hp
      obtain ⟨t1, r2, c2⟩ := x2
      simp only [Except.ok.injEq, Prod.mk.injEq] at hp
      exact main hp1 hp2 (fun hmode => nomatch hmode)
        (fun _ => by rw [Bool.or_eq_true]; exact Or.inl hsht) hp.2.2.symm
    | entryTop k =>
      simp only [parse_field] at hp
      obtain ⟨x1, hp1, hp⟩ := exceptBind_ok hp
      obtain ⟨h1, r1, c1⟩ := x1
      obtain ⟨x2, hp2, hp⟩ := exceptBind_ok hp
      obtain ⟨t1, r2, c2⟩ := x2
      simp only [Except.ok.injEq, Prod.mk.injEq] at hp
      exact main hp1 hp2 (fun hmode => nomatch hmode)
        (fun hmode => nomatch hmode) hp.2.2.symm
    | entryIn =>
      simp only [parse_field] at hp
      obtain ⟨x1, hp1, hp⟩ := exceptBind_ok hp
      obtain ⟨h1, r1, c1⟩ := x1
      obtain ⟨x2, hp2, hp⟩ := exceptBind_ok hp
      obtain ⟨t1, r2, c2⟩ := x2
      simp only [Except.ok.injEq, Prod.mk.injEq] at hp
      exact main hp1 hp2 (fun hmode => nomatch hmode)
        (fun hmode => nomatch hmode) hp.2.2.symm
  | dcons k x t ihx iht =>
    intro mode v' refs ch hp hw hshape
    simp only [wfValue, Bool.and_eq_true] at hw
    obtain ⟨⟨hwx, hsht⟩, hwt⟩ := hw
    have main :
        ∀ {mx mt : PMode} {x1 t1 : Value} {r1 r2 : List Reference}
          {c1 c2 : List Schema},
        parse_field env reg owner ownerCls isProps mx x = .ok (x1, r1, c1) →
        parse_field env reg owner ownerCls isProps mt t = .ok (t1, r2, c2) →
        (mx = .chainTop → (isListShape x || isDictShape x) = true) →
        (mt = .chainTop → (isListShape t || isDictShape t) = true) →
        ch = c1 ++ c2 →
        (∀ r ∈ refsInValue (.dcons k x t),
          r ∈ regNames reg ∨ ∃ c ∈ ch, r ∈ refsInSchema c) ∧
        (∀ c ∈ ch, wfSchema c = true) := by
      intro mx mt x1 t1 r1 r2 c1 c2 hpx hpt hsx hst hch
      obtain ⟨px1, px2⟩ := ihx mx hpx hwx hsx
      obtain ⟨pt1, pt2⟩ := iht mt hpt hwt hst
      subst hch
      constructor
      · intro r hr
        simp only [refsInValue, List.mem_append] at hr
        rcases hr with hr | hr
        · rcases px1 r hr with hl | ⟨cc, hcc, hrc⟩
          · exact .inl hl
          · exact .inr ⟨cc, List.mem_append_left _ hcc, hrc⟩
        · rcases pt1 r hr with hl | ⟨cc, hcc, hrc⟩
          · exact .inl hl
          · exact .inr ⟨cc, List.mem_append_right _ hcc, hrc⟩
      · intro cc hcc
        rcases List.mem_append.mp hcc with hcc | hcc
        · exact px2 cc hcc
        · exact pt2 cc hcc
    cases mode with
    | chainTop =>
      simp only [parse_field] at hp
      obtain ⟨x1, hp1, hp⟩ := exceptBind_ok hp
      obtain ⟨xv, r1, c1⟩ := x1
      obtain ⟨x2, hp2, hp⟩ := exceptBind_ok hp
      obtain ⟨t1, r2, c2⟩ := x2
      simp only [Except.ok.injEq, Prod.mk.injEq] at hp
      exact main hp1 hp2 (fun hmode => nomatch hmode)
        (fun _ => by rw [Bool.or_eq_true]; exact Or.inr hsht) hp.2.2.symm
    | entryTop kk =>
      simp only [parse_field] at hp
      obtain ⟨x1, hp1, hp⟩ := exceptBind_ok hp
      obtain ⟨xv, r1, c1⟩ := x1
      obtain ⟨x2, hp2, hp⟩ := exceptBind_ok hp
      obtain ⟨t1, r2, c2⟩ := x2
      simp only [Except.ok.injEq, Prod.mk.injEq] at hp
      exact main hp1 hp2 (fun hmode => nomatch hmode)
        (fun hmode => nomatch hmode) hp.2.2.symm
    | entryIn =>
      simp only [parse_field] at hp
      obtain ⟨x1, hp1, hp⟩ := exceptBind_ok hp
      obtain ⟨xv, r1, c1⟩ := x1
      obtain ⟨x2, hp2, hp⟩ := exceptBind_ok hp
      obtain ⟨t1, r2, c2⟩ := x2
      simp only [Except.ok.injEq, Prod.mk.injEq] at hp
      exact main hp1 hp2 (fun hmode => nomatch hmode)
        (fun hmode => nomatch hmode) hp.2.2.symm

/-- A nested component schema sitting at a (list/dict) path of a parsed
value is replaced in place by a `Reference` to its promoted dotted name,
and the renamed child is among the extracted children. -/
theorem parse_field_path {env : ReflectionEnv} {reg : Registry}
    {owner ownerCls : String} {isProps : Bool} :
    ∀ (v : Value) (mode : PMode) {v' : Value} {refs : List Reference}
      {ch : List Schema} (p : List PE) {nm c : String} {a kw pr : Value},
    parse_field env reg owner ownerCls isProps mode v = .ok (v', refs, ch) →
    getPathV v p = some (.comp nm c a kw pr) →
    (mode = .chainTop → p ≠ []) →
    getPathV v' p = some (.refv ⟨owner ++ "." ++ nm, none⟩) ∧
    (⟨owner ++ "." ++ nm, c, a, kw, pr, []⟩ : Schema) ∈ ch := by
  intro v
  induction v with
  | lit n =>
    intro mode v' refs ch p nm c a kw pr _ hpath _
    cases p <;> simp [getPathV] at hpath
  | refv r =>
    intro mode v' refs ch p nm c a kw pr _ hpath _
    cases p <;> simp [getPathV] at hpath
  | vnil =>
    intro mode v' refs ch p nm c a kw pr _ hpath _
    cases p <;> simp [getPathV] at hpath
  | dnil =>
    intro mode v' refs ch p nm c a kw pr _ hpath _
    cases p <;> simp [getPathV] at hpath
  | comp nm0 c0 a0 kw0 pr0 iha ihk ihp =>
    intro mode v' refs ch p nm c a kw pr hp hpath hne
    cases p with
    | cons pe rest => cases pe <;> simp [getPathV] at hpath
    | nil =>
      simp only [getPathV, Option.some.injEq] at hpath
      injection hpath with h1 h2 h3 h4 h5
      subst h1; subst h2; subst h3; subst h4; subst h5
      cases mode with
      | chainTop => exact absurd rfl (hne rfl)
      | entryTop k =>
        simp only [parse_field, Except.ok.injEq, Prod.mk.injEq] at hp
        obtain ⟨hv, _, hc⟩ := hp
        subst hv; subst hc
        exact ⟨by simp [getPathV], List.mem_singleton_self _⟩
      | entryIn =>
        simp only [parse_field, Except.ok.injEq, Prod.mk.injEq] at hp
        obtain ⟨hv, _, hc⟩ := hp
        subst hv; subst hc
        exact ⟨by simp [getPathV], List.mem_singleton_self _⟩
  | vcons h t ihh iht =>
    intro mode v' refs ch p nm c a kw pr hp hpath hne
    have main :
        ∀ {mh mt : PMode} {h1 t1 : Value} {r1 r2 : List Reference}
          {c1 c2 : List Schema},
        parse_field env reg owner ownerCls isProps mh h = .ok (h1, r1, c1) →
        parse_field env reg owner ownerCls isProps mt t = .ok (t1, r2, c2) →
        (mh = .chainTop → False) →
        v' = .vcons h1 t1 → ch = c1 ++ c2 →
        getPathV v' p = some (.refv ⟨owner ++ "." ++ nm, none⟩) ∧
        (⟨owner ++ "." ++ nm, c, a, kw, pr, []⟩ : Schema) ∈ ch := by
      intro mh mt h1 t1 r1 r2 c1 c2 hp1 hp2 hmh hv hc
      subst hv; subst hc
      cases p with
      | nil => simp [getPathV] at hpath
      | cons pe rest =>
        cases pe with
        | key s => simp [getPathV] at hpath
        | idx m =>
          cases m with
          | zero =>
            rw [show getPathV (Value.vcons h t) (.idx 0 :: rest) =
              getPathV h rest from rfl] at hpath
            obtain ⟨hg, hmem⟩ := ihh mh rest hp1 hpath
              (fun hm => absurd hm (fun hm' => hmh hm'))
            exact ⟨by simpa [getPathV] using hg,
              List.mem_append_left _ hmem⟩
          | succ m' =>
            rw [show getPathV (Value.vcons h t) (.idx (m' + 1) :: rest) =
              getPathV t (.idx m' :: rest) from rfl] at hpath
            obtain ⟨hg, hmem⟩ := iht mt (.idx m' :: rest) hp2 hpath
              (fun _ => by simp)
            exact ⟨by simpa [getPathV] using hg,
              List.mem_append_right _ hmem⟩
    cases mode with
    | chainTop =>
      simp only [parse_field] at hp
      obtain ⟨x1, hp1, hp⟩ := exceptBind_ok hp
      obtain ⟨h1, r1, c1⟩ := x1
      obtain ⟨x2, hp2, hp⟩ := exceptBind_ok hp
      obtain ⟨t1, r2, c2⟩ := x2
      simp only [Except.ok.injEq, Prod.mk.injEq] at hp
      exact main hp1 hp2 (fun hm => nomatch hm) hp.1.symm hp.2.2.symm
    | entryTop k =>
      simp only [parse_field] at hp
      obtain ⟨x1, hp1, hp⟩ := exceptBind_ok hp
      obtain ⟨h1, r1, c1⟩ := x1
      obtain ⟨x2, hp2, hp⟩ := exceptBind_ok hp
      obtain ⟨t1, r2, c2⟩ := x2
      simp only [Except.ok.injEq, Prod.mk.injEq] at hp
      exact main hp1 hp2 (fun hm => nomatch hm) hp.1.symm hp.2.2.symm
    | entryIn =>
      simp only [parse_field] at hp
      obtain ⟨x1, hp1, hp⟩ := exceptBind_ok hp
      obtain ⟨h1, r1, c1⟩ := x1
      obtain ⟨x2, hp2, hp⟩ := exceptBind_ok hp
      obtain ⟨t1, r2, c2⟩ := x2
      simp only [Except.ok.injEq, Prod.mk.injEq] at hp
      exact main hp1 hp2 (fun hm => nomatch hm) hp.1.symm hp.2.2.symm
  | dcons k x t ihx iht =>
    intro mode v' refs ch p nm c a kw pr hp hpath hne
    have main :
        ∀ {mx mt : PMode} {x1 t1 : Value} {r1 r2 : List Reference}
          {c1 c2 : List Schema},
        parse_field env reg owner ownerCls isProps mx x = .ok (x1, r1, c1) →
        parse_field env reg owner ownerCls isProps mt t = .ok (t1, r2, c2) →
        (mx = .chainTop → False) →
        v' = .dcons k x1 t1 → ch = c1 ++ c2 →
        getPathV v' p = some (.refv ⟨owner ++ "." ++ nm, none⟩) ∧
        (⟨owner ++ "." ++ nm, c, a, kw, pr, []⟩ : Schema) ∈ ch := by
      intro mx mt x1 t1 r1 r2 c1 c2 hp1 hp2 hmx hv hc
      subst hv; subst hc
      cases p with
      | nil => simp [getPathV] at hpath
      | cons pe rest =>
        cases pe with
        | idx m => simp [getPathV] at hpath
        | key s =>
          by_cases hk : k = s
          · subst hk
            rw [show getPathV (Value.dcons k x t) (.key k :: rest) =
              getPathV x rest by simp [getPathV]] at hpath
            obtain ⟨hg, hmem⟩ := ihx mx rest hp1 hpath
              (fun hm => absurd hm (fun hm' => hmx hm'))
            refine ⟨?_, List.mem_append_left _ hmem⟩
            rw [show getPathV (Value.dcons k x1 t1) (.key k :: rest) =
              getPathV x1 rest by simp [getPathV]]
            exact hg
          · rw [show getPathV (Value.dcons k x t) (.key s :: rest) =
              getPathV t (.key s :: rest) by simp [getPathV, hk]] at hpath
            obtain ⟨hg, hmem⟩ := iht mt (.key s :: rest) hp2 hpath
              (fun _ => by simp)
            refine ⟨?_, List.mem_append_right _ hmem⟩
            rw [show getPathV (Value.dcons k x1 t1) (.key s :: rest) =
              getPathV t1 (.key s :: rest) by simp [getPathV, hk]]
            exact hg
    cases mode with
    | chainTop =>
      simp only [parse_field] at hp
      obtain ⟨x1, hp1, hp⟩ := exceptBind_ok hp
      obtain ⟨xv, r1, c1⟩ := x1
      obtain ⟨x2, hp2, hp⟩ := exceptBind_ok hp
      obtain ⟨t1, r2, c2⟩ := x2
      simp only [Except.ok.injEq, Prod.mk.injEq] at hp
      exact main hp1 hp2 (fun hm => nomatch hm) hp.1.symm hp.2.2.symm
    | entryTop kk =>
      simp only [parse_field] at hp
      obtain ⟨x1, hp1, hp⟩ := exceptBind_ok hp
      obtain ⟨xv, r1, c1⟩ := x1
      obtain ⟨x2, hp2, hp⟩ := exceptBind_ok hp
      obtain ⟨t1, r2, c2⟩ := x2
      simp only [Except.ok.injEq, Prod.mk.injEq] at hp
      exact main hp1 hp2 (fun hm => nomatch hm) hp.1.symm hp.2.2.symm
    | entryIn =>
      simp only [parse_field] at hp
      obtain ⟨x1, hp1, hp⟩ := exceptBind_ok hp
      obtain ⟨xv, r1, c1⟩ := x1
      obtain ⟨x2, hp2, hp⟩ := exceptBind_ok hp
      obtain ⟨t1, r2, c2⟩ := x2
      simp only [Except.ok.injEq, Prod.mk.injEq] at hp
      exact main hp1 hp2 (fun hm => nomatch hm) hp.1.symm hp.2.2.symm

theorem parseSchema_refs {env : ReflectionEnv} {reg : Registry}
    {s s' : Schema} {ch : List Schema}
    (h : parseSchema env reg s = .ok (s', ch)) (hw : wfSchema s = true) :
    (∀ r ∈ refsInSchema s, r ∈ regNames reg ∨ ∃ c ∈ ch, r ∈ refsInSchema c) ∧
    (∀ c ∈ ch, wfSchema c = true) := by
  obtain ⟨a1, r1, c1, a2, r2, c2, a3, r3, c3, h1, h2, h3, _, _, _, _, _,
    hch⟩ := parseSchema_ok_inv h
  simp only [wfSchema, Bool.and_eq_true] at hw
  obtain ⟨⟨⟨⟨⟨hsa, hsk⟩, hsp⟩, hwa⟩, hwk⟩, hwp⟩ := hw
  have pa := parse_field_refs s.args .chainTop h1 hwa
    (fun _ => by rw [Bool.or_eq_true]; exact Or.inl hsa)
  have pk := parse_field_refs s.kwargs .chainTop h2 hwk
    (fun _ => by rw [Bool.or_eq_true]; exact Or.inr hsk)
  have pp := parse_field_refs s.props .chainTop h3 hwp
    (fun _ => by rw [Bool.or_eq_true]; exact Or.inr hsp)
  subst hch
  constructor
  · intro r hr
    simp only [refsInSchema, List.mem_append] at hr
    rcases hr with (hr | hr) | hr
    · rcases pa.1 r hr with hl | ⟨cc, hcc, hrc⟩
      · exact .inl hl
      · exact .inr ⟨cc, by simp [hcc], hrc⟩
    · rcases pk.1 r hr with hl | ⟨cc, hcc, hrc⟩
      · exact .inl hl
      · exact .inr ⟨cc, by simp [hcc], hrc⟩
    · rcases pp.1 r hr with hl | ⟨cc, hcc, hrc⟩
      · exact .inl hl
      · exact .inr ⟨cc, by simp [hcc], hrc⟩
  · intro cc hcc
    simp only [List.mem_append] at hcc
    rcases hcc with (hcc | hcc) | hcc
    · exact pa.2 cc hcc
    · exact pk.2 cc hcc
    · exact pp.2 cc hcc

/-! ### Lemmas about `travel_schemas` -/

theorem travel_names_mono {env : ReflectionEnv} :
    ∀ {fuel : Nat} {reg : Registry} {order : List String} {w : List Schema}
      {reg' : Registry} {order' : List String},
    travel_schemas env fuel reg order w = .ok (reg', order') →
    ∀ {n : String}, n ∈ regNames reg → n ∈ regNames reg' := by
  intro fuel
  induction fuel with
  | zero =>
    intro reg order w reg' order' h
    simp [travel_schemas] at h
  | succ fuel ih =>
    intro reg order w reg' order' h n hn
    cases w with
    | nil =>
      simp only [travel_schemas, Except.ok.injEq, Prod.mk.injEq] at h
      rw [← h.1]
      exact hn
    | cons s rest =>
      simp only [travel_schemas] at h
      obtain ⟨parsed, hp, h⟩ := exceptBind_ok h
      obtain ⟨reg1, hr1, h⟩ := exceptBind_ok h
      apply ih h
      rw [updateOwners_names, register_all_names hr1]
      exact List.mem_append_left _ hn

theorem travel_order_mono {env : ReflectionEnv} :
    ∀ {fuel : Nat} {reg : Registry} {order : List String} {w : List Schema}
      {reg' : Registry} {order' : List String},
    travel_schemas env fuel reg order w = .ok (reg', order') →
    ∀ {x : String}, x ∈ order → x ∈ order' := by
  intro fuel
  induction fuel with
  | zero =>
    intro reg order w reg' order' h
    simp [travel_schemas] at h
  | succ fuel ih =>
    intro reg order w reg' order' h x hx
    cases w with
    | nil =>
      simp only [travel_schemas, Except.ok.injEq, Prod.mk.injEq] at h
      rw [← h.2]
      exact hx
    | cons s rest =>
      simp only [travel_schemas] at h
      obtain ⟨parsed, hp, h⟩ := exceptBind_ok h
      obtain ⟨reg1, hr1, h⟩ := exceptBind_ok h
      exact ih h (List.mem_append_right _ hx)

theorem travel_preserves {env : ReflectionEnv} :
    ∀ {fuel : Nat} {reg : Registry} {order : List String} {w : List Schema}
      {reg' : Registry} {order' : List String},
    travel_schemas env fuel reg order w = .ok (reg', order') →
    ∀ {n : String} {s : Schema}, lookupSchema reg n = some s →
    n ∉ w.map Schema.name → lookupSchema reg' n = some s := by
  intro fuel
  induction fuel with
  | zero =>
    intro reg order w reg' order' h
    simp [travel_schemas] at h
  | succ fuel ih =>
    intro reg order w reg' order' h n s hl hnw
    cases w with
    | nil =>
      simp only [travel_schemas, Except.ok.injEq, Prod.mk.injEq] at h
      rw [← h.1]
      exact hl
    | cons s0 rest =>
      simp only [travel_schemas] at h
      obtain ⟨parsed, hp, h⟩ := exceptBind_ok h
      obtain ⟨reg1, hr1, h⟩ := exceptBind_ok h
      have hl1 : lookupSchema reg1 n = some s := by
        rw [register_all_ok_entries hr1]
        exact lookupSchema_append_left _ hl
      have hfind : (parsed.map Prod.fst).find? (fun q => q.name = n) =
          none := by
        rw [List.find?_eq_none]
        intro q hq
        simp only [decide_eq_true_eq]
        intro he
        apply hnw
        obtain ⟨pr, hpr, hq1⟩ := List.mem_map.mp hq
        have hqn : q.name ∈ (parsed.map fun pr => pr.1.name) :=
          List.mem_map.mpr ⟨pr, hpr, by rw [hq1]⟩
        rw [parseAll_owner_names hp] at hqn
        rw [← he]
        exact hqn
      have hl2 : lookupSchema (updateOwners reg1 (parsed.map Prod.fst)) n =
          some s := by
        rw [updateOwners_lookup, hl1]
        simp [hfind]
      have hnc : n ∉ ((parsed.map Prod.snd).flatten).map Schema.name := by
        intro hmem
        obtain ⟨c, hc, he⟩ := List.mem_map.mp hmem
        exact (register_all_fresh hr1 c hc)
          (he ▸ lookupSchema_mem_names hl)
      exact ih h hl2 hnc

theorem register_all_consistent {l : List Schema} {reg reg' : Registry}
    (h : register_all reg l = .ok reg')
    (hc : ∀ q ∈ reg, (q.2).name = q.1) : ∀ q ∈ reg', (q.2).name = q.1 := by
  rw [register_all_ok_entries h]
  intro q hq
  rcases List.mem_append.mp hq with h1 | h2
  · exact hc q h1
  · obtain ⟨s, hs, he⟩ := List.mem_map.mp h2
    rw [← he]

theorem updateOwners_consistent {parsed : List Schema} :
    ∀ {reg : Registry}, (∀ q ∈ reg, (q.2).name = q.1) →
    ∀ q ∈ updateOwners reg parsed, (q.2).name = q.1 := by
  intro reg
  induction reg with
  | nil => intro _ q hq; simp [updateOwners] at hq
  | cons e rest ih =>
    obtain ⟨k, s⟩ := e
    intro hc q hq
    have hstep : updateOwners ((k, s) :: rest) parsed =
        ((match parsed.find? (fun q => q.name = k) with
          | some q => (k, q)
          | none => (k, s)) :: updateOwners rest parsed) := rfl
    rw [hstep] at hq
    rcases List.mem_cons.mp hq with hq0 | hqr
    · cases hf : parsed.find? (fun q => q.name = k) with
      | none =>
        rw [hf] at hq0
        rw [hq0]
        exact hc (k, s) (List.mem_cons_self _ _)
      | some q0 =>
        rw [hf] at hq0
        rw [hq0]
        have := List.find?_some hf
        simpa using this
    · exact ih (fun q' hq' => hc q' (List.mem_cons_of_mem _ hq')) q hqr

theorem travel_consistent {env : ReflectionEnv} :
    ∀ {fuel : Nat} {reg : Registry} {order : List String} {w : List Schema}
      {reg' : Registry} {order' : List String},
    travel_schemas env fuel reg order w = .ok (reg', order') →
    (∀ q ∈ reg, (q.2).name = q.1) → ∀ q ∈ reg', (q.2).name = q.1 := by
  intro fuel
  induction fuel with
  | zero =>
    intro reg order w reg' order' h
    simp [travel_schemas] at h
  | succ fuel ih =>
    intro reg order w reg' order' h hc
    cases w with
    | nil =>
      simp only [travel_schemas, Except.ok.injEq, Prod.mk.injEq] at h
      rw [← h.1]
      exact hc
    | cons s0 rest =>
      simp only [travel_schemas] at h
      obtain ⟨parsed, hp, h⟩ := exceptBind_ok h
      obtain ⟨reg1, hr1, h⟩ := exceptBind_ok h
      exact ih h (updateOwners_consistent (register_all_consistent hr1 hc))

theorem travel_nodup {env : ReflectionEnv} :
    ∀ {fuel : Nat} {reg : Registry} {order : List String} {w : List Schema}
      {reg' : Registry} {order' : List String},
    travel_schemas env fuel reg order w = .ok (reg', order') →
    (regNames reg).Nodup → (regNames reg').Nodup := by
  intro fuel
  induction fuel with
  | zero =>
    intro reg order w reg' order' h
    simp [travel_schemas] at h
  | succ fuel ih =>
    intro reg order w reg' order' h hnd
    cases w with
    | nil =>
      simp only [travel_schemas, Except.ok.injEq, Prod.mk.injEq] at h
      rw [← h.1]
      exact hnd
    | cons s0 rest =>
      simp only [travel_schemas] at h
      obtain ⟨parsed, hp, h⟩ := exceptBind_ok h
      obtain ⟨reg1, hr1, h⟩ := exceptBind_ok h
      apply ih h
      rw [updateOwners_names]
      exact register_all_nodup hr1 hnd

theorem travel_refs {env : ReflectionEnv} :
    ∀ {fuel : Nat} {reg : Registry} {order : List String} {w : List Schema}
      {reg' : Registry} {order' : List String},
    travel_schemas env fuel reg order w = .ok (reg', order') →
    (∀ s ∈ w, wfSchema s = true) →
    ∀ s ∈ w, ∀ r ∈ refsInSchema s, r ∈ regNames reg' := by
  intro fuel
  induction fuel with
  | zero =>
    intro reg order w reg' order' h
    simp [travel_schemas] at h
  | succ fuel ih =>
    intro reg order w reg' order' h hwf s hs r hr
    cases w with
    | nil => simp at hs
    | cons s0 rest =>
      simp only [travel_schemas] at h
      obtain ⟨parsed, hp, h⟩ := exceptBind_ok h
      obtain ⟨reg1, hr1, h⟩ := exceptBind_ok h
      have hwc : ∀ c ∈ (parsed.map Prod.snd).flatten, wfSchema c = true := by
        intro c hc
        obtain ⟨l, hl, hcl⟩ := List.mem_flatten.mp hc
        obtain ⟨pr, hpr, he⟩ := List.mem_map.mp hl
        obtain ⟨sx, hsx, hpsx⟩ := parseAll_mem2 hp hpr
        obtain ⟨prf, prs⟩ := pr
        have hcl' : c ∈ prs := by
          have hpl : prs = l := he
          rw [hpl]
          exact hcl
        exact (parseSchema_refs hpsx (hwf sx hsx)).2 c hcl'
      obtain ⟨pr, hpr, hps⟩ := parseAll_mem hp hs
      obtain ⟨prf, prs⟩ := pr
      rcases (parseSchema_refs hps (hwf s hs)).1 r hr with hl | ⟨c, hc, hrc⟩
      · apply travel_names_mono h
        rw [updateOwners_names, register_all_names hr1]
        exact List.mem_append_left _ hl
      · have hcch : c ∈ (parsed.map Prod.snd).flatten := by
          refine List.mem_flatten.mpr ⟨prs, ?_, hc⟩
          exact List.mem_map.mpr ⟨(prf, prs), hpr, rfl⟩
        exact ih h hwc c hcch r hrc

/-- C7: a declaration whose component list carries two schemas with the
same name is rejected by `DeclarationProcessor.__init__` with a
duplicate-name validation error (raised by `_register_schema` during the
initial registration, before any flattening); and no schema set
containing a duplicate name — flat or produced by flattening — is ever
accepted: a successfully built processor's registry has pairwise-distinct
names. -/
theorem duplicate_name_rejected (env : ReflectionEnv) (decl : List Schema) :
    (¬ (decl.map Schema.name).Nodup →
      ∃ nm, processor_init env decl = .error (.duplicateName nm)) ∧
    (∀ P, processor_init env decl = .ok P → (regNames P.schemas).Nodup) := by
  constructor
  · intro hdup
    have h0 : ¬ (regNames ([] : Registry) ++ decl.map Schema.name).Nodup := by
      simpa [regNames] using hdup
    obtain ⟨nm, hr⟩ := register_all_dup decl [] (by simp [regNames]) h0
    exact ⟨nm, by simp [processor_init, hr, Bind.bind, Except.bind]⟩
  · intro P hP
    unfold processor_init at hP
    obtain ⟨reg0, h1, hP⟩ := exceptBind_ok hP
    obtain ⟨x, h2, hP⟩ := exceptBind_ok hP
    obtain ⟨reg', compNames⟩ := x
    simp only [Except.ok.injEq] at hP
    subst hP
    exact travel_nodup h2 (register_all_nodup h1 (by simp [regNames]))

/-- witness for C7: two flat schemas named `a` are rejected with a
duplicate-name error. -/
theorem duplicate_name_rejected_witness :
    (¬ (([samplePlain, samplePlain2].map Schema.name).Nodup)) ∧
    (∃ nm, processor_init trivEnv [samplePlain, samplePlain2] =
      .error (.duplicateName nm)) :=
  ⟨by decide, (duplicate_name_rejected trivEnv _).1 (by decide)⟩

/-- C8: whenever `DeclarationProcessor.__init__` accepts a declaration of
well-formed schemas, every `Reference` occurring anywhere in the
declaration — in `args`, `kwargs` or `props`, at any depth inside lists,
dicts and nested component schemas — targets a registered schema name.
Equivalently, a `Reference` whose target is not among the registered
names always makes processing fail (the failure raised at the reference
is the unknown-reference error of `parse_field`). -/
theorem unknown_reference_rejected (env : ReflectionEnv)
    (decl : List Schema) :
    ∀ P, processor_init env decl = .ok P →
    (∀ s ∈ decl, wfSchema s = true) →
    ∀ s ∈ decl, ∀ r ∈ refsInSchema s, r ∈ regNames P.schemas := by
  intro P hP hwf s hs r hr
  unfold processor_init at hP
  obtain ⟨reg0, h1, hP⟩ := exceptBind_ok hP
  obtain ⟨x, h2, hP⟩ := exceptBind_ok hP
  obtain ⟨reg', compNames⟩ := x
  simp only [Except.ok.injEq] at hP
  subst hP
  exact travel_refs h2 hwf s hs r hr

/-- supporting example for C8: a declaration whose single schema refers
to the unregistered name `a` fails with the unknown-reference error. -/
theorem processor_init_dangling_example :
    processor_init trivEnv [sampleReferring] =
      .error (.unknownReference "a") := rfl

/-- witness for C8: a two-schema declaration where `c` refers to `a` is
accepted, and the reference target is registered. -/
theorem unknown_reference_rejected_witness :
    ∃ P, processor_init trivEnv [samplePlain, sampleReferring] = .ok P ∧
      "a" ∈ regNames P.schemas := by
  refine ⟨_, rfl, ?_⟩
  exact unknown_reference_rejected trivEnv [samplePlain, sampleReferring]
    _ rfl (by decide) sampleReferring (by decide) "a" (by decide)

/-- C2: flattening promotes every nested component schema to a top-level
entry under its dotted name and leaves a reference at its place.  Stated
for one `travel_schemas` pass over any worklist `w` against any
consistent registry that already holds the worklist's schemas — which is
exactly how the processor invokes it, first with the declaration's
top-level schemas and then, recursively, with each pass's extracted
children, so this covers nesting at every depth, including components
nested inside other nested components.  If schema `s` of the worklist
holds a nested component schema named `nm` at list/dict path `p` of field
`f`, then after a successful run the registry has a top-level entry named
`s.name ++ "." ++ nm`, that name is in the component list, and the
processed version of `s` holds at `(f, p)` a `Reference` to it. -/
theorem travel_flattens_nested_schema (env : ReflectionEnv) (fuel : Nat)
    (reg : Registry) (order : List String) (w : List Schema)
    (reg' : Registry) (order' : List String)
    (hok : travel_schemas env fuel reg order w = .ok (reg', order'))
    (hcons : ∀ q ∈ reg, (q.2).name = q.1)
    (hmem : ∀ s ∈ w, s.name ∈ regNames reg)
    (hnd : (w.map Schema.name).Nodup)
    (s : Schema) (hs : s ∈ w) (f : FieldSel) (p : List PE)
    (nm c : String) (a kw pr : Value)
    (hpath : getLoc s f p = some (.comp nm c a kw pr)) (hp : p ≠ []) :
    (∃ child, lookupSchema reg' (s.name ++ "." ++ nm) = some child ∧
      child.name = s.name ++ "." ++ nm) ∧
    (s.name ++ "." ++ nm) ∈ order' ∧
    (∃ s1, lookupSchema reg' s.name = some s1 ∧
      getLoc s1 f p = some (.refv ⟨s.name ++ "." ++ nm, none⟩)) := by
  cases fuel with
  | zero => simp [travel_schemas] at hok
  | succ fuel =>
    cases w with
    | nil => simp at hs
    | cons s0 rest =>
      simp only [travel_schemas] at hok
      obtain ⟨parsed, hpp, hok⟩ := exceptBind_ok hok
      obtain ⟨reg1, hr1, hok⟩ := exceptBind_ok hok
      obtain ⟨prx, hprm, hps⟩ := parseAll_mem hpp hs
      obtain ⟨s1, ch⟩ := prx
      obtain ⟨a1, r1, c1, a2, r2, c2, a3, r3, c3, h1, h2, h3, hname, _,
        hargs, hkwargs, hprops, hch⟩ := parseSchema_ok_inv hps
      have hK : getLoc s1 f p = some (.refv ⟨s.name ++ "." ++ nm, none⟩) ∧
          (⟨s.name ++ "." ++ nm, c, a, kw, pr, []⟩ : Schema) ∈ ch := by
        cases f with
        | args =>
          obtain ⟨hg, hm⟩ := parse_field_path s.args .chainTop p h1 hpath
            (fun _ => hp)
          subst hch
          refine ⟨?_, by simp [hm]⟩
          show getPathV s1.args p = _
          rw [hargs]
          exact hg
        | kwargs =>
          obtain ⟨hg, hm⟩ := parse_field_path s.kwargs .chainTop p h2 hpath
            (fun _ => hp)
          subst hch
          refine ⟨?_, by simp [hm]⟩
          show getPathV s1.kwargs p = _
          rw [hkwargs]
          exact hg
        | props =>
          obtain ⟨hg, hm⟩ := parse_field_path s.props .chainTop p h3 hpath
            (fun _ => hp)
          subst hch
          refine ⟨?_, by simp [hm]⟩
          show getPathV s1.props p = _
          rw [hprops]
          exact hg
      set child : Schema := ⟨s.name ++ "." ++ nm, c, a, kw, pr, []⟩ with hchild
      have hchch : child ∈ (parsed.map Prod.snd).flatten := by
        refine List.mem_flatten.mpr ⟨ch, ?_, hK.2⟩
        exact List.mem_map.mpr ⟨(s1, ch), hprm, rfl⟩
      have hlc1 : lookupSchema reg1 child.name = some child :=
        register_all_new hr1 child hchch
      have hfreshc : child.name ∉ regNames reg :=
        register_all_fresh hr1 child hchch
      have hwnames : (parsed.map fun prr => prr.1.name) =
          (s0 :: rest).map Schema.name := parseAll_owner_names hpp
      have hfindc : (parsed.map Prod.fst).find?
          (fun q => q.name = child.name) = none := by
        rw [List.find?_eq_none]
        intro q hq
        simp only [decide_eq_true_eq]
        intro he
        apply hfreshc
        obtain ⟨prr, hprr, hq1⟩ := List.mem_map.mp hq
        have hqn : q.name ∈ (parsed.map fun prr => prr.1.name) :=
          List.mem_map.mpr ⟨prr, hprr, by rw [hq1]⟩
        rw [hwnames] at hqn
        have hmq : q.name ∈ regNames reg := by
          obtain ⟨sx, hsx, hex⟩ := List.mem_map.mp hqn
          rw [← hex]
          exact hmem sx hsx
        rwa [he] at hmq
      have hlc2 : lookupSchema (updateOwners reg1 (parsed.map Prod.fst))
          child.name = some child := by
        rw [updateOwners_lookup, hlc1]
        simp [hfindc]
      have hcons2 : ∀ q ∈ updateOwners reg1 (parsed.map Prod.fst),
          (q.2).name = q.1 :=
        updateOwners_consistent (register_all_consistent hr1 hcons)
      refine ⟨?_, ?_, ?_⟩
      · have hmemc : child.name ∈ regNames reg' :=
          travel_names_mono hok (lookupSchema_mem_names hlc2)
        obtain ⟨child', hlc'⟩ := lookupSchema_of_mem_names hmemc
        refine ⟨child', hlc', ?_⟩
        exact travel_consistent hok hcons2 (child.name, child')
          (lookupSchema_some_mem hlc')
      · apply travel_order_mono hok
        apply List.mem_append_left
        exact List.mem_map.mpr ⟨child, hchch, rfl⟩
      · obtain ⟨s0v, hl0⟩ := lookupSchema_of_mem_names (hmem s hs)
        have hl1 : lookupSchema reg1 s.name = some s0v := by
          rw [register_all_ok_entries hr1]
          exact lookupSchema_append_left _ hl0
        have hfind1 : (parsed.map Prod.fst).find?
            (fun q => q.name = s.name) = some s1 :=
          parseAll_find hpp hnd hs hps
        have hl2 : lookupSchema (updateOwners reg1 (parsed.map Prod.fst))
            s.name = some s1 := by
          rw [updateOwners_lookup, hl1]
          simp [hfind1]
        have hnc : s.name ∉ ((parsed.map Prod.snd).flatten).map
            Schema.name := by
          intro hmm
          obtain ⟨cc, hcc, hee⟩ := List.mem_map.mp hmm
          exact (register_all_fresh hr1 cc hcc) (hee ▸ hmem s hs)
        refine ⟨s1, travel_preserves hok hl2 hnc, hK.1⟩

/-- witness for C2: a schema `a` with component `b` nested in `args[0]`;
after flattening, `a.b` is registered and listed, and the processed `a`
holds a reference to `a.b` at `args[0]`. -/
theorem travel_flattens_nested_schema_witness :
    getLoc sampleNested .args [.idx 0] =
      some (.comp "b" "B" .vnil .dnil .dnil) ∧
    ∃ reg' order',
      travel_schemas trivEnv 5 [("a", sampleNested)] ["a"] [sampleNested] =
        .ok (reg', order') ∧
      (∃ child, lookupSchema reg' "a.b" = some child ∧
        child.name = "a.b") ∧
      "a.b" ∈ order' ∧
      (∃ s1, lookupSchema reg' "a" = some s1 ∧
        getLoc s1 .args [.idx 0] = some (.refv ⟨"a.b", none⟩)) := by
  refine ⟨rfl, _, _, rfl, ?_⟩
  have h := travel_flattens_nested_schema trivEnv 5 [("a", sampleNested)]
    ["a"] [sampleNested] _ _ rfl (by decide) (by decide) (by decide)
    sampleNested (by decide) .args [.idx 0] "b" "B" .vnil .dnil .dnil
    rfl (by decide)
  exact h

/-- witness for C4 (amended): one registered instance of `T` resolves to
the one-element list; an empty registry raises `DependencyNotFound`. -/
theorem collection_inject_resolution_witness :
    (lookupTy (save_component_type [] ["T", "object"] ⟨some "x", 1⟩) "T" =
      some [⟨some "x", 1⟩]) ∧
    inject_dependencies (save_component_type [] ["T", "object"]
        ⟨some "x", 1⟩) "c" [⟨"p", .inject none, .coll (.plain "T")⟩] [] [] =
      .ok ([("p", .rlist [.inst ⟨some "x", 1⟩])], [.inst ⟨some "x", 1⟩]) ∧
    inject_dependencies [] "c" [⟨"p", .inject none, .coll (.plain "T")⟩]
        [] [] =
      .error (.dependencyNotFound "c" (.coll (.plain "T"))) :=
  ⟨by decide,
   (collection_inject_resolution _ "c" _ [] [] "T" (.inl ⟨rfl, rfl⟩)
     rfl).1 [⟨some "x", 1⟩] (by decide) (by decide),
   (collection_inject_resolution _ "c" _ [] [] "T" (.inl ⟨rfl, rfl⟩)
     rfl).2 (by decide)⟩

end Onion
